import Mathlib

/-!
# go-pyframe: a shallow embedding of `lang.go`

The bytecode machine of `lang.go` is embedded as pure functions over an explicit
machine state.

Modelling conventions.

* `float64` is kept abstract: the embedding is generic in a type `ν` carrying
  `+ - * /` and `1`, so every theorem holds for any interpretation of the
  floating-point operations, the IEEE one included.
* The four `Stack` values of a `Code` are typed by what `eval` asserts of their
  elements (`byte`, `Object`, `string`, `int`).  Slices are lists: the arrays
  behind the `Stack` values of distinct code objects and frames are taken to be
  distinct, as they are when every `Stack` is built from a literal of its own.
* `*Code` pointers are addresses into `Vm.heap`; an address outside the heap is a
  nil pointer.  `FuncObj` carries such an address, so the operand-index queue of a
  code unit is shared by every function value and frame that points to it.
* `*Frame` pointers held in `Vm.frames` are positions in that list; `eval` keeps
  the position `fi` of the frame it was started on (Go's local `f`).
* A Go run-time panic (failed type assertion, index out of range, nil
  dereference) and `panic(err)` are outcomes of their own, distinct from an
  `error` returned by `eval`.
* Printing is not modelled, except that `OpPut` appends the object it prints to
  `Vm.out`; the indexing done by `dissemble` is modelled because it can panic.
* `eval` recurses through `OpCall`; the embedding takes a fuel argument that
  bounds the number of loop iterations along any path.
-/

namespace PyFrame

variable {ν : Type}

/-! ## Stack -/

/-- The `Stack` struct: a slice `Val`, the most recently pushed element last. -/
structure Stack (α : Type) where
  Val : List α
  deriving DecidableEq, Repr

namespace Stack

variable {α : Type}

/-- Go's `Push`: `s.Val = append(s.Val, val)`. -/
def Push (s : Stack α) (val : α) : Stack α := ⟨s.Val ++ [val]⟩

/-- Go's `Len`. -/
def Len (s : Stack α) : Nat := s.Val.length

/-- Go's `Empty`. -/
def Empty (s : Stack α) : Bool := s.Val.length == 0

/-- Go's `Pop(reverse)`: the popped element (`none` is Go's `nil`) and the stack left.
With `reverse = false` the last element is removed, with `reverse = true` the
first one. -/
def Pop (s : Stack α) (reverse : Bool) : Option α × Stack α :=
  if s.Len = 0 then (none, s)
  else if !reverse then
    (s.Val.getLast?, ⟨s.Val.take (s.Val.length - 1) ++ s.Val.drop (s.Val.length - 1 + 1)⟩)
  else
    (s.Val.head?, ⟨s.Val.take 0 ++ s.Val.drop 1⟩)

/-- Go's `CopyOf`: `s.Val = append(s.Val, v.Val[0:v.Len()]...)`. -/
def CopyOf (s : Stack α) (v : Stack α) : Stack α := ⟨s.Val ++ v.Val.take v.Len⟩

/-- Indexing `s.Val[i]` with a Go `int`; `none` is the index-out-of-range panic. -/
def index (s : Stack α) (i : Int) : Option α :=
  if 0 ≤ i then s.Val[i.toNat]? else none

end Stack

/-! ## Objects -/

/-- Go's `ObjType`. -/
inductive ObjType
  | Num
  | Str
  | Func
  | None
  deriving DecidableEq, Repr

/-- The implementations of the `Object` interface.  `FuncObj.code` is the address
of the function's `Code` in the heap. -/
inductive Object (ν : Type)
  | NumObj (v : ν)
  | StrObj (v : String)
  | FuncObj (name : String) (args : Int) (code : Nat)
  | NoneObj
  deriving DecidableEq, Repr

namespace Object

/-- The method `Type()`. -/
def typeOf : Object ν → ObjType
  | NumObj _ => ObjType.Num
  | StrObj _ => ObjType.Str
  | FuncObj _ _ _ => ObjType.Func
  | NoneObj => ObjType.None

/-- The method `Value()`: a `float64` (left) or a `string` (right). -/
def Value : Object ν → ν ⊕ String
  | NumObj v => Sum.inl v
  | StrObj v => Sum.inr v
  | FuncObj name _ _ => Sum.inr name
  | NoneObj => Sum.inr "None"

end Object

open Object

/-! ## Bytecodes -/

abbrev OpLoad : Nat := 0
abbrev OpConst : Nat := 1
abbrev OpStore : Nat := 2
abbrev OpAdd : Nat := 3
abbrev OpSub : Nat := 4
abbrev OpMul : Nat := 5
abbrev OpDiv : Nat := 6
abbrev OpPut : Nat := 7
abbrev OpPop : Nat := 8
abbrev OpCall : Nat := 9
abbrev OpBuiltin : Nat := 10
abbrev OpAddO : Nat := 11
abbrev OpSubO : Nat := 12
abbrev OpRet : Nat := 13

/-- The type assertion `x.(float64)` on the result of `Value()`; `none` is the
panic of a failed assertion. -/
def assertFloat64 : ν ⊕ String → Option ν
  | Sum.inl v => some v
  | Sum.inr _ => none

section
variable [Add ν] [Sub ν] [Mul ν] [Div ν]

/-- Go's `FourOperations`.  The outer `none` is a run-time panic (a failed
`.(float64)` assertion), `some none` is the `nil` result, `some (some o)` the
object returned. -/
def FourOperations (x y : Object ν) (op : Nat) : Option (Option (Object ν)) :=
  if x.typeOf = ObjType.None ∨ y.typeOf = ObjType.None then some none
  else if x.typeOf = ObjType.Str ∨ y.typeOf = ObjType.Str then some none
  else
    match assertFloat64 x.Value with
    | none => none
    | some a =>
      match assertFloat64 y.Value with
      | none => none
      | some b =>
        if op = OpAdd then some (some (NumObj (a + b)))
        else if op = OpSub then some (some (NumObj (a - b)))
        else if op = OpMul then some (some (NumObj (a * b)))
        else if op = OpDiv then some (some (NumObj (a / b)))
        else some none

end

/-! ## Code objects, symbol tables, frames -/

/-- Go's `Code`: bytecodes, constants, variable names and the operand-index queue. -/
structure Code (ν : Type) where
  bytes : Stack Nat
  cons : Stack (Object ν)
  vars : Stack String
  offsets : Stack Int
  deriving DecidableEq, Repr

/-- Go's `NewCode`. -/
def NewCode (code : Stack Nat) (cons : Stack (Object ν)) (vars : Stack String)
    (offsets : Stack Int) : Code ν :=
  { bytes := code, cons := cons, vars := vars, offsets := offsets }

/-- Go's `Table`, a `map[string]Object`, as an association list with one entry a key. -/
abbrev Table (ν : Type) := List (String × Object ν)

namespace Table

/-- Go's `lookUp`; `none` is the `nil` returned for an absent name. -/
def lookUp (t : Table ν) (name : String) : Option (Object ν) :=
  match t with
  | [] => none
  | (k, v) :: rest => if k = name then some v else lookUp rest name

/-- The assignment `t[name] = val`: the binding of `name` is replaced when there
is one, added otherwise; the other bindings are kept. -/
def store (t : Table ν) (name : String) (val : Object ν) : Table ν :=
  match t with
  | [] => [(name, val)]
  | (k, v) :: rest => if k = name then (k, val) :: rest else (k, v) :: store rest name val

/-- Go's `Len`. -/
def Len (t : Table ν) : Nat := t.length

end Table

/-- Go's `Frame`. -/
structure Frame (ν : Type) where
  code : Nat
  stack : Stack (Object ν)
  localVar : Table ν
  builtin : Table ν
  deriving DecidableEq, Repr

/-- The index accesses of `Frame.dissemble` over the bytes left, with its three
counters `sp`, `vp` and `op`: `true` when none of them panics. -/
def dissembleFrom (co : Code ν) : List Nat → Nat → Nat → Nat → Bool
  | [], _, _, _ => true
  | b :: bs, sp, vp, op =>
    if b = OpLoad then
      decide (vp < co.vars.Len) && decide (op < co.offsets.Len)
        && dissembleFrom co bs sp (vp + 1) (op + 1)
    else if b = OpConst then
      (match co.offsets.Val[op]? with
        | none => false
        | some i => (co.cons.index i).isSome)
        && dissembleFrom co bs sp vp (op + 1)
    else if b = OpStore then
      decide (sp < co.vars.Len) && decide (op < co.offsets.Len)
        && dissembleFrom co bs (sp + 1) vp (op + 1)
    else if b = OpCall then
      decide (op < co.offsets.Len) && dissembleFrom co bs sp vp (op + 1)
    else dissembleFrom co bs sp vp op

/-- Whether `Frame.dissemble` runs to its end without a panic. -/
def dissemble (co : Code ν) : Bool := dissembleFrom co co.bytes.Val 0 0 0

/-- Go's `NewFrame(code)` in a heap: an empty evaluation stack and an empty symbol
table; `none` when `dissemble` panics (a nil `code` included). -/
def NewFrame (heap : List (Code ν)) (code : Nat) : Option (Frame ν) :=
  match heap[code]? with
  | none => none
  | some c =>
    if dissemble c then
      some { code := code, stack := ⟨[]⟩, localVar := [], builtin := [] }
    else none

/-! ## The virtual machine -/

/-- Go's `Vm`: the frames (the top one last) and the object last returned, together
with the heap of code objects the `*Code` pointers refer to and the objects
printed by `OpPut`. -/
structure Vm (ν : Type) where
  frames : List (Frame ν)
  last : Option (Object ν)
  heap : List (Code ν)
  out : List (Object ν)
  deriving DecidableEq, Repr

/-- The errors `eval` builds with `errors.New`. -/
inductive EvalError (ν : Type)
  | symbolNotFound (nam : String)
  | fourArithmetic (x y : Object ν)
  | onlyIntegers
  | functionParameter (require got : Int)
  | dataLoading
  deriving DecidableEq, Repr

/-- How a run ends: `done` (for `eval`: `nil` returned), `failed` (an `error`
returned), `panicked` (a Go panic: a run-time error when `e` is `none`,
`panic(err)` otherwise), each with the machine state reached, or the fuel of the
embedding ran out. -/
inductive Outcome (ν : Type) (α : Type)
  | done (a : α)
  | failed (e : EvalError ν) (vm : Vm ν)
  | panicked (e : Option (EvalError ν)) (vm : Vm ν)
  | outOfFuel
  deriving DecidableEq, Repr

namespace Vm

/-- Go's `topFrame`; `none` is the index panic on an empty `frames`. -/
def topFrame (v : Vm ν) : Option (Frame ν) := v.frames[v.frames.length - 1]?

/-- Go's `popFrame`: `v.frames = append(v.frames[:l], v.frames[l+1:]...)`. -/
def popFrame (v : Vm ν) : Vm ν :=
  { v with frames := v.frames.take (v.frames.length - 1)
                      ++ v.frames.drop (v.frames.length - 1 + 1) }

/-- Go's `pushFrame`. -/
def pushFrame (v : Vm ν) (f : Frame ν) : Vm ν := { v with frames := v.frames ++ [f] }

/-- Write through the frame pointer at position `fi`. -/
def setFrame (v : Vm ν) (fi : Nat) (f : Frame ν) : Vm ν :=
  { v with frames := v.frames.set fi f }

/-- Write through the code pointer `co`. -/
def setCode (v : Vm ν) (co : Nat) (c : Code ν) : Vm ν :=
  { v with heap := v.heap.set co c }

end Vm

/-- Go's `popOffset`: `c.offsets.Pop(true).(int)`; `none` is the panic of the
assertion on `nil`. -/
def popOffset (c : Code ν) : Option (Int × Code ν) :=
  match (c.offsets.Pop true).1 with
  | none => none
  | some i => some (i, { c with offsets := (c.offsets.Pop true).2 })

/-- Go's `pushStack`. -/
def pushStack (f : Frame ν) (v : Object ν) : Frame ν := { f with stack := f.stack.Push v }

/-- Go's `popStack`: `f.stack.Pop(false).(Object)`; `none` is the panic of the
assertion on `nil`. -/
def popStack (f : Frame ν) : Option (Object ν × Frame ν) :=
  match (f.stack.Pop false).1 with
  | none => none
  | some o => some (o, { f with stack := (f.stack.Pop false).2 })

/-- Go's `peekStack`: `f.stack.Val[f.stack.Len()-1].(Object)`; `none` is the index
panic on an empty stack. -/
def peekStack (f : Frame ν) : Option (Object ν) :=
  if f.stack.Len = 0 then none else f.stack.Val[f.stack.Len - 1]?

/-! ## `eval` -/

section
variable [Add ν] [Sub ν] [Mul ν] [Div ν] [One ν]

/-- The cases of the `switch` in `eval` other than `OpCall`, for the byte `b`, run
on the frame at `fi` and the code object at `co`. -/
def execOp (b fi co : Nat) (vm : Vm ν) : Outcome ν (Vm ν) :=
  match vm.heap[co]?, vm.frames[fi]? with
  | none, _ => .panicked none vm
  | _, none => .panicked none vm
  | some c, some f =>
    if b = OpLoad then
      match popOffset c with
      | none => .panicked none vm
      | some (i, c1) =>
        match c.vars.index i with
        | none => .panicked none (vm.setCode co c1)
        | some nam =>
          match f.localVar.lookUp nam with
          | none => .failed (.symbolNotFound nam) (vm.setCode co c1)
          | some val => .done ((vm.setCode co c1).setFrame fi (pushStack f val))
    else if b = OpConst then
      match popOffset c with
      | none => .panicked none vm
      | some (i, c1) =>
        match c.cons.index i with
        | none => .panicked none (vm.setCode co c1)
        | some val => .done ((vm.setCode co c1).setFrame fi (pushStack f val))
    else if b = OpStore then
      match popStack f with
      | none => .panicked none vm
      | some (val, f1) =>
        match popOffset c with
        | none => .panicked none (vm.setFrame fi f1)
        | some (i, c1) =>
          match c.vars.index i with
          | none => .panicked none ((vm.setFrame fi f1).setCode co c1)
          | some nam =>
            .done ((vm.setCode co c1).setFrame fi
              { f1 with localVar := f1.localVar.store nam val })
    else if b = OpAdd ∨ b = OpSub ∨ b = OpMul ∨ b = OpDiv then
      match popStack f with
      | none => .panicked none vm
      | some (x, f1) =>
        match popStack f1 with
        | none => .panicked none (vm.setFrame fi f1)
        | some (y, f2) =>
          match FourOperations x y b with
          | none => .panicked none (vm.setFrame fi f2)
          | some none => .failed (.fourArithmetic x y) (vm.setFrame fi f2)
          | some (some val) => .done (vm.setFrame fi (pushStack f2 val))
    else if b = OpAddO ∨ b = OpSubO then
      match popStack f with
      | none => .panicked none vm
      | some (val, f1) =>
        match val with
        | NumObj v =>
          let v1 := if b = OpAddO then v + 1 else v
          let v2 := if b = OpSubO then v1 - 1 else v1
          .done (vm.setFrame fi (pushStack f1 (NumObj v2)))
        | _ => .failed .onlyIntegers (vm.setFrame fi f1)
    else if b = OpPut then
      match peekStack f with
      | none => .panicked none vm
      | some o => .done { vm with out := vm.out ++ [o] }
    else if b = OpPop then
      match popStack f with
      | none => .panicked none vm
      | some (_, f1) => .done (vm.setFrame fi f1)
    else if b = OpRet then
      match popStack f with
      | none => .panicked none vm
      | some (val, f1) => .done { (vm.setFrame fi f1) with last := some val }
    else .done vm

end

/-- The loop `for i := 0; i < off; i++` of `OpCall`, from `i` with `k` rounds to
go: the name `val.code.vars.Val[i]`, an object popped from the stack of the frame
at `fi`, and the assignment into the symbol table of the new frame `n`. -/
def bindArgs (vars : Stack String) (fi : Nat) :
    Nat → Nat → Vm ν → Frame ν → Outcome ν (Vm ν × Frame ν)
  | 0, _, vm, n => .done (vm, n)
  | k + 1, i, vm, n =>
    match vars.Val[i]? with
    | none => .panicked none vm
    | some x =>
      match vm.frames[fi]? with
      | none => .panicked none vm
      | some f =>
        match popStack f with
        | none => .panicked none vm
        | some (y, f1) =>
          bindArgs vars fi k (i + 1) (vm.setFrame fi f1)
            { n with localVar := n.localVar.store x y }

/-- What `OpCall` hands over to the run of the callee: the machine with the new
frame pushed, the copy `t` of the callee's operand-index queue, and the callee's
code pointer `n.code`. -/
structure CallCtx (ν : Type) where
  vm : Vm ν
  t : Stack Int
  callee : Nat
  deriving DecidableEq, Repr

/-- The case `OpCall` up to and including `v.pushFrame(n)`. -/
def callEnter (fi co : Nat) (vm : Vm ν) : Outcome ν (CallCtx ν) :=
  match vm.frames[fi]? with
  | none => .panicked none vm
  | some f =>
    match popStack f with
    | none => .panicked none vm
    | some (FuncObj _ args code, f1) =>
      let vm1 := vm.setFrame fi f1
      match NewFrame vm1.heap code, vm1.heap[code]? with
      | some n, some cc =>
        let t : Stack Int := (Stack.mk []).CopyOf cc.offsets
        match vm1.heap[co]? with
        | none => .panicked none vm1
        | some c =>
          match popOffset c with
          | none => .panicked none vm1
          | some (off, c1) =>
            let vm2 := vm1.setCode co c1
            if off ≠ 0 then
              if off ≠ args then .failed (.functionParameter args off) vm2
              else
                match vm2.topFrame with
                | none => .panicked none vm2
                | some top =>
                  if (top.stack.Len : Int) < off then .failed .dataLoading vm2
                  else
                    match bindArgs cc.vars fi off.toNat 0 vm2 n with
                    | .done (vm3, n1) =>
                      .done { vm := vm3.pushFrame n1, t := t, callee := code }
                    | .failed e s => .failed e s
                    | .panicked e s => .panicked e s
                    | .outOfFuel => .outOfFuel
            else .done { vm := vm2.pushFrame n, t := t, callee := code }
      | _, _ => .panicked none vm1
    | some (_, f1) => .panicked none (vm.setFrame fi f1)

/-- The case `OpCall` after the callee's `eval` returned `nil`: the queue is put back
(`n.code.offsets = *t`), the frame is popped, and a returned object is pushed on
the stack of the frame at `fi`. -/
def callExit (fi : Nat) (t : Stack Int) (callee : Nat) (vm : Vm ν) : Vm ν :=
  let vm1 : Vm ν :=
    match vm.heap[callee]? with
    | none => vm
    | some cc => vm.setCode callee { cc with offsets := t }
  let vm2 := vm1.popFrame
  match vm2.last with
  | none => vm2
  | some r =>
    match vm2.frames[fi]? with
    | none => { vm2 with last := none }
    | some f => { (vm2.setFrame fi (pushStack f r)) with last := none }

/-- The case `OpCall`, the recursive `v.eval()` being `run`: an error returned by
the callee is turned into `panic(err)`. -/
def callOp (run : Vm ν → Outcome ν (Vm ν)) (fi co : Nat) (vm : Vm ν) : Outcome ν (Vm ν) :=
  match callEnter fi co vm with
  | .done ctx =>
    match run ctx.vm with
    | .done vm1 => .done (callExit fi ctx.t ctx.callee vm1)
    | .failed e s => .panicked (some e) s
    | .panicked e s => .panicked e s
    | .outOfFuel => .outOfFuel
  | .failed e s => .failed e s
  | .panicked e s => .panicked e s
  | .outOfFuel => .outOfFuel

/-- The head of `eval`: `f := v.topFrame()`, `ip := 0`, `co := f.code`, then the
loop `loop fi co ip`. -/
def enter (loop : Nat → Nat → Nat → Vm ν → Outcome ν (Vm ν)) (vm : Vm ν) :
    Outcome ν (Vm ν) :=
  match vm.topFrame with
  | none => .panicked none vm
  | some f => loop (vm.frames.length - 1) f.code 0 vm

section
variable [Add ν] [Sub ν] [Mul ν] [Div ν] [One ν]

/-- The loop `for ip < co.bytes.Len()` of `eval` from `ip`, on the frame at `fi`
with code pointer `co`.  The first argument is the fuel. -/
def evalLoop : Nat → Nat → Nat → Nat → Vm ν → Outcome ν (Vm ν)
  | 0, _, _, _, _ => .outOfFuel
  | fuel + 1, fi, co, ip, vm =>
    match vm.heap[co]? with
    | none => .panicked none vm
    | some c =>
      if h : ip < c.bytes.Val.length then
        let b := c.bytes.Val[ip]
        let r :=
          if b = OpCall then callOp (enter (evalLoop fuel)) fi co vm
          else execOp b fi co vm
        match r with
        | .done vm1 => evalLoop fuel fi co (ip + 1) vm1
        | other => other
      else .done vm

/-- Go's `Vm.eval`, with fuel. -/
def eval (fuel : Nat) (vm : Vm ν) : Outcome ν (Vm ν) := enter (evalLoop fuel) vm

end

/-! ## Machines and programs used as concrete inputs -/

/-- The frame `NewFrame` builds on the code object at address `code`. -/
def freshFrame (code : Nat) : Frame ν :=
  { code := code, stack := ⟨[]⟩, localVar := [], builtin := [] }

/-- The machine the tests build, `Vm{frames: []*Frame{f}}`: one fresh frame on
the code object at address 0 of `heap`, nothing returned yet, nothing printed. -/
def initVm (heap : List (Code ν)) : Vm ν :=
  { frames := [freshFrame 0], last := none, heap := heap, out := [] }

/-- The code unit `LoadConst a, Return, LoadConst b, Return`. -/
def retProg (a b : Object ν) : Code ν :=
  NewCode ⟨[OpConst, OpRet, OpConst, OpRet]⟩ ⟨[a, b]⟩ ⟨[]⟩ ⟨[0, 1]⟩

/-- The code unit `LoadConst x, LoadConst y, op`. -/
def binProg (op : Nat) (x y : Object ν) : Code ν :=
  NewCode ⟨[OpConst, OpConst, op]⟩ ⟨[x, y]⟩ ⟨[]⟩ ⟨[0, 1]⟩

/-- The machine in which `binProg op x y` has run to its end with the evaluation
stack `stack`: the queue is used up, nothing else has changed. -/
def binFinal (op : Nat) (x y : Object ν) (stack : List (Object ν)) : Vm ν :=
  { frames := [{ code := 0, stack := ⟨stack⟩, localVar := [], builtin := [] }],
    last := none,
    heap := [NewCode ⟨[OpConst, OpConst, op]⟩ ⟨[x, y]⟩ ⟨[]⟩ ⟨[]⟩],
    out := [] }

/-- A machine about to run the single byte `op` on the evaluation stack `stack`. -/
def opVm (op : Nat) (stack : List (Object ν)) : Vm ν :=
  { frames := [{ code := 0, stack := ⟨stack⟩, localVar := [], builtin := [] }],
    last := none,
    heap := [NewCode ⟨[op]⟩ ⟨[]⟩ ⟨[]⟩ ⟨[]⟩],
    out := [] }

/-- The machine `OpCall` has reached once the function is popped off the stack
of the frame `f` at `fi`, leaving `rest`, and its operand index is dequeued from
the code object `c` at `co`, leaving `q`. -/
def afterCallOperand (vm : Vm ν) (fi co : Nat) (f : Frame ν) (c : Code ν)
    (rest : List (Object ν)) (q : List Int) : Vm ν :=
  (vm.setFrame fi { f with stack := ⟨rest⟩ }).setCode co { c with offsets := ⟨q⟩ }

/-- The symbol table got from `t` by the assignments `names[0] = objs[0]`,
`names[1] = objs[1]`, ... made in this order, as far as both lists go. -/
def bindAll (t : Table ν) (names : List String) (objs : List (Object ν)) : Table ν :=
  (List.zip names objs).foldl (fun acc p => Table.store acc p.1 p.2) t

/-- A caller about to run `OpCall` with operand index `k` on the function
`FuncObj "foo" arity 1`, whose code unit declares the names `vars`, the objects
`stack` lying below the function. -/
def callVm (arity k : Int) (vars : List String) (stack : List (Object Int)) : Vm Int :=
  { frames := [{ code := 0, stack := ⟨stack ++ [FuncObj "foo" arity 1]⟩, localVar := [],
                 builtin := [] }],
    last := none,
    heap := [NewCode ⟨[OpCall]⟩ ⟨[]⟩ ⟨[]⟩ ⟨[k]⟩,
             NewCode ⟨[OpConst, OpRet]⟩ ⟨[NoneObj]⟩ ⟨vars⟩ ⟨[0]⟩],
    out := [] }

/-- The code unit `LoadConst None, Return`. -/
def returnNone : Code Int := NewCode ⟨[OpConst, OpRet]⟩ ⟨[NoneObj]⟩ ⟨[]⟩ ⟨[0]⟩

/-- The code unit `LoadConst 5, StoreVar x, LoadConst None, Return`. -/
def storeFive : Code Int :=
  NewCode ⟨[OpConst, OpStore, OpConst, OpRet]⟩ ⟨[NoneObj, NumObj 5]⟩ ⟨["x"]⟩ ⟨[1, 0, 0]⟩

/-- The code unit of `plus` in `TestFunctionReturn`: `LoadVar num, Output,
IncrementTop, Output, Return`, with the queue `queue`. -/
def plusOne (queue : List Int) : Code Int :=
  NewCode ⟨[OpLoad, OpPut, OpAddO, OpPut, OpRet]⟩ ⟨[NoneObj]⟩ ⟨["num"]⟩ ⟨queue⟩

/-- A machine with one frame, a caller at the byte `OpCall` with the evaluation
stack `stack`, the symbol table `locals` and the queue `queue`; the code object at
address 1 is `callee`. -/
def callerVm (stack : List (Object Int)) (locals : Table Int) (queue : List Int)
    (callee : Code Int) : Vm Int :=
  { frames := [{ code := 0, stack := ⟨stack⟩, localVar := locals, builtin := [] }],
    last := none,
    heap := [NewCode ⟨[OpCall]⟩ ⟨[]⟩ ⟨[]⟩ ⟨queue⟩, callee],
    out := [] }

/-- A caller with `x` bound to `3` about to call, with no argument supplied, the
function `foo` of `storeFive`. -/
def isolationVm : Vm Int :=
  callerVm [FuncObj "foo" 0 1] [("x", NumObj 3)] [0] storeFive

/-- The caller of `TestFunctionReturn` about to call `plus` on the number `5`. -/
def plusVm : Vm Int :=
  callerVm [NumObj 5, FuncObj "plus" 1 1] [] [1] (plusOne [0, 0])

/-- The code unit `LoadConst 1, Return, LoadConst g, Call, LoadConst g, Call`: it
returns in the middle and then calls the function `g` (code object 1) twice. -/
def callTwice : Code Int :=
  NewCode ⟨[OpConst, OpRet, OpConst, OpCall, OpConst, OpCall]⟩
    ⟨[NumObj 1, FuncObj "g" 0 1]⟩ ⟨[]⟩ ⟨[0, 1, 0, 1, 0]⟩

/-- The code unit of `g`: `LoadConst h, Call, Discard`, `h` the function of the
empty code unit (code object 2). -/
def callAndDiscard : Code Int :=
  NewCode ⟨[OpConst, OpCall, OpPop]⟩ ⟨[FuncObj "h" 0 2]⟩ ⟨[]⟩ ⟨[0, 0]⟩

/-- The empty code unit. -/
def emptyCode : Code Int := NewCode ⟨[]⟩ ⟨[]⟩ ⟨[]⟩ ⟨[]⟩

/-- A caller about to call, with no argument supplied, the function `foo` of
`storeFive`, the objects `below` lying below the function; `more` is what is left
of the caller's queue after the operand index of this call. -/
def reuseVm (below : List (Object Int)) (more : List Int) : Vm Int :=
  callerVm (below ++ [FuncObj "foo" 0 1]) [] (0 :: more) storeFive

/-! ## What one byte does to the objects it touches

The bytes other than `OpCall` read and write the frame `f`, the code object `co`
points to, `v.last` (written by `OpRet` only, never read) and the output.  The
functions below give this effect on the frame and the code object alone; they are
used to state that a run without `OpCall` depends on nothing else. -/

/-- The frame and code object a byte leaves, the object it stores in `v.last` and
the object it prints. -/
structure OpEffect (ν : Type) where
  c : Code ν
  f : Frame ν
  ret : Option (Object ν)
  put : Option (Object ν)

/-- How a byte ends: the loop goes on, `eval` returns an error, or it panics. -/
inductive OpResult (ν : Type)
  | next (e : OpEffect ν)
  | failed (err : EvalError ν) (e : OpEffect ν)
  | panicked (e : OpEffect ν)

section
variable [Add ν] [Sub ν] [Mul ν] [Div ν] [One ν]

/-- The byte `b`, other than `OpCall`, on the code object `c` and the frame `f`. -/
def opLocal (b : Nat) (c : Code ν) (f : Frame ν) : OpResult ν :=
  if b = OpLoad then
    match popOffset c with
    | none => .panicked ⟨c, f, none, none⟩
    | some (i, c1) =>
      match c.vars.index i with
      | none => .panicked ⟨c1, f, none, none⟩
      | some nam =>
        match f.localVar.lookUp nam with
        | none => .failed (.symbolNotFound nam) ⟨c1, f, none, none⟩
        | some val => .next ⟨c1, pushStack f val, none, none⟩
  else if b = OpConst then
    match popOffset c with
    | none => .panicked ⟨c, f, none, none⟩
    | some (i, c1) =>
      match c.cons.index i with
      | none => .panicked ⟨c1, f, none, none⟩
      | some val => .next ⟨c1, pushStack f val, none, none⟩
  else if b = OpStore then
    match popStack f with
    | none => .panicked ⟨c, f, none, none⟩
    | some (val, f1) =>
      match popOffset c with
      | none => .panicked ⟨c, f1, none, none⟩
      | some (i, c1) =>
        match c.vars.index i with
        | none => .panicked ⟨c1, f1, none, none⟩
        | some nam => .next ⟨c1, { f1 with localVar := f1.localVar.store nam val }, none, none⟩
  else if b = OpAdd ∨ b = OpSub ∨ b = OpMul ∨ b = OpDiv then
    match popStack f with
    | none => .panicked ⟨c, f, none, none⟩
    | some (x, f1) =>
      match popStack f1 with
      | none => .panicked ⟨c, f1, none, none⟩
      | some (y, f2) =>
        match FourOperations x y b with
        | none => .panicked ⟨c, f2, none, none⟩
        | some none => .failed (.fourArithmetic x y) ⟨c, f2, none, none⟩
        | some (some val) => .next ⟨c, pushStack f2 val, none, none⟩
  else if b = OpAddO ∨ b = OpSubO then
    match popStack f with
    | none => .panicked ⟨c, f, none, none⟩
    | some (val, f1) =>
      match val with
      | NumObj v =>
        let v1 := if b = OpAddO then v + 1 else v
        let v2 := if b = OpSubO then v1 - 1 else v1
        .next ⟨c, pushStack f1 (NumObj v2), none, none⟩
      | _ => .failed .onlyIntegers ⟨c, f1, none, none⟩
  else if b = OpPut then
    match peekStack f with
    | none => .panicked ⟨c, f, none, none⟩
    | some o => .next ⟨c, f, none, some o⟩
  else if b = OpPop then
    match popStack f with
    | none => .panicked ⟨c, f, none, none⟩
    | some (_, f1) => .next ⟨c, f1, none, none⟩
  else if b = OpRet then
    match popStack f with
    | none => .panicked ⟨c, f, none, none⟩
    | some (val, f1) => .next ⟨c, f1, some val, none⟩
  else .next ⟨c, f, none, none⟩

end

/-- The machine with an effect written through the pointers `fi` and `co`. -/
def writeBack (fi co : Nat) (vm : Vm ν) (e : OpEffect ν) : Vm ν :=
  { frames := vm.frames.set fi e.f,
    heap := vm.heap.set co e.c,
    last := match e.ret with
      | none => vm.last
      | some r => some r,
    out := match e.put with
      | none => vm.out
      | some o => vm.out ++ [o] }

/-- The outcome of a byte in the machine. -/
def liftResult (fi co : Nat) (vm : Vm ν) : OpResult ν → Outcome ν (Vm ν)
  | .next e => .done (writeBack fi co vm e)
  | .failed err e => .failed err (writeBack fi co vm e)
  | .panicked e => .panicked none (writeBack fi co vm e)

/-- Two code objects with the same bytes, constants and names: they differ at
most in the operand-index queue. -/
def Code.SameText (c c1 : Code ν) : Prop :=
  c1.bytes = c.bytes ∧ c1.cons = c.cons ∧ c1.vars = c.vars

/-- What a run on the frame at `fi` keeps of the machine: the number of frames,
the frames below `fi`, the number of code objects and their bytes, constants and
names. -/
def Stable (fi : Nat) (vm vm1 : Vm ν) : Prop :=
  vm1.frames.length = vm.frames.length
    ∧ (∀ j, j < fi → vm1.frames[j]? = vm.frames[j]?)
    ∧ vm1.heap.length = vm.heap.length
    ∧ ∀ (p : Nat) (c : Code ν), vm.heap[p]? = some c →
        ∃ c1, vm1.heap[p]? = some c1 ∧ Code.SameText c c1

/-! ## Further machines, programs and run prefixes -/

/-- The code unit `LoadVar x`; in a fresh frame `x` is unbound. -/
def loadUnbound : Code Int := NewCode ⟨[OpLoad]⟩ ⟨[]⟩ ⟨["x"]⟩ ⟨[0]⟩

/-- The code unit `LoadConst f, Call, LoadConst 1, Output`, `f` the function of
`loadUnbound` (code object 1). -/
def callUnbound : Code Int :=
  NewCode ⟨[OpConst, OpCall, OpConst, OpPut]⟩ ⟨[FuncObj "f" 0 1, NumObj 1]⟩ ⟨[]⟩ ⟨[0, 0, 1]⟩

/-- The machine in which the callee `loadUnbound` has failed: its frame is still
on top, the queue of the caller's code object `caller` is `queue`, nothing was
printed. -/
def unboundFailed (caller : List Nat) (cons : List (Object Int)) (queue : List Int) : Vm Int :=
  { frames := [freshFrame 0, freshFrame 1],
    last := none,
    heap := [NewCode ⟨caller⟩ ⟨cons⟩ ⟨[]⟩ ⟨queue⟩, NewCode ⟨[OpLoad]⟩ ⟨[]⟩ ⟨["x"]⟩ ⟨[]⟩],
    out := [] }

/-- A machine about to run `LoadVar x` (the code unit `loadUnbound`) in a frame
with the symbol table `locals`. -/
def loadVm (locals : Table Int) : Vm Int :=
  { frames := [{ code := 0, stack := ⟨[]⟩, localVar := locals, builtin := [] }],
    last := none,
    heap := [loadUnbound],
    out := [] }

/-- The code unit of `TestStore` on the numbers `a` and `b`: `LoadConst a,
StoreVar x, LoadConst b, StoreVar y, LoadVar x, LoadVar y, Add, StoreVar z,
LoadConst None, Return`. -/
def testStore (a b : ν) : Code ν :=
  NewCode ⟨[OpConst, OpStore, OpConst, OpStore, OpLoad, OpLoad, OpAdd, OpStore, OpConst, OpRet]⟩
    ⟨[NoneObj, NumObj a, NumObj b]⟩ ⟨["x", "y", "z"]⟩ ⟨[1, 0, 2, 1, 0, 1, 2, 0]⟩

/-- The machine in which `testStore a b` has run to its end with `z` bound to
the number `sum`. -/
def testStoreFinal (a b sum : ν) : Vm ν :=
  { frames := [{ code := 0, stack := ⟨[]⟩,
                 localVar := [("x", NumObj a), ("y", NumObj b), ("z", NumObj sum)],
                 builtin := [] }],
    last := some NoneObj,
    heap := [NewCode
      ⟨[OpConst, OpStore, OpConst, OpStore, OpLoad, OpLoad, OpAdd, OpStore, OpConst, OpRet]⟩
      ⟨[NoneObj, NumObj a, NumObj b]⟩ ⟨["x", "y", "z"]⟩ ⟨[]⟩],
    out := [] }

/-- The code unit of `TestFourOperations` on the numbers `n34`, `n66` and `n8`:
`LoadConst n34, LoadConst n66, Add, Output, LoadConst n8, Mul, Output,
LoadConst None, Return`. -/
def fourOps (n34 n66 n8 : ν) : Code ν :=
  NewCode ⟨[OpConst, OpConst, OpAdd, OpPut, OpConst, OpMul, OpPut, OpConst, OpRet]⟩
    ⟨[NoneObj, NumObj n34, NumObj n66, NumObj n8]⟩ ⟨[]⟩ ⟨[1, 2, 3, 0]⟩

/-- The machine in which `fourOps n34 n66 n8` has run to its end, having printed
the numbers `p` and `r`; `r` is left on the stack. -/
def fourOpsFinal (n34 n66 n8 p r : ν) : Vm ν :=
  { frames := [{ code := 0, stack := ⟨[NumObj r]⟩, localVar := [], builtin := [] }],
    last := some NoneObj,
    heap := [NewCode ⟨[OpConst, OpConst, OpAdd, OpPut, OpConst, OpMul, OpPut, OpConst, OpRet]⟩
      ⟨[NoneObj, NumObj n34, NumObj n66, NumObj n8]⟩ ⟨[]⟩ ⟨[]⟩],
    out := [NumObj p, NumObj r] }

/-- Arithmetic expressions over integer literals: the free interpretation of
`+ - * /`, in which an operation is the expression it builds.  A machine run on
these numbers shows which operation it applied to which operands, in which
order. -/
inductive Sym
  | lit (n : Int)
  | add (a b : Sym)
  | sub (a b : Sym)
  | mul (a b : Sym)
  | div (a b : Sym)
  deriving DecidableEq, Repr

instance : Add Sym := ⟨Sym.add⟩

instance : Sub Sym := ⟨Sym.sub⟩

instance : Mul Sym := ⟨Sym.mul⟩

instance : Div Sym := ⟨Sym.div⟩

instance : One Sym := ⟨Sym.lit 1⟩

/-- The stack after `Push` of the elements of a list, one after the other. -/
def pushAll {α : Type} (s : Stack α) : List α → Stack α
  | [] => s
  | x :: xs => pushAll (s.Push x) xs

/-- The results of `n` calls of `Pop` in the mode `reverse`, in the order of the
calls, and the stack they leave. -/
def popN {α : Type} (reverse : Bool) : Nat → Stack α → List (Option α) × Stack α
  | 0, s => ([], s)
  | n + 1, s =>
    ((s.Pop reverse).1 :: (popN reverse n (s.Pop reverse).2).1,
      (popN reverse n (s.Pop reverse).2).2)

section
variable [Add ν] [Sub ν] [Mul ν] [Div ν] [One ν]

/-- The loop of `eval` stopped before the byte at `stop`: `evalLoop` with the
guard `ip < co.bytes.Len()` strengthened by `ip < stop`.  It returns the machine
in which a run of `eval` reaches the byte at `stop`. -/
def evalLoopTo (stop : Nat) : Nat → Nat → Nat → Nat → Vm ν → Outcome ν (Vm ν)
  | 0, _, _, _, _ => .outOfFuel
  | fuel + 1, fi, co, ip, vm =>
    match vm.heap[co]? with
    | none => .panicked none vm
    | some c =>
      if h : ip < c.bytes.Val.length then
        if ip < stop then
          let b := c.bytes.Val[ip]
          let r :=
            if b = OpCall then callOp (enter (evalLoop fuel)) fi co vm
            else execOp b fi co vm
          match r with
          | .done vm1 => evalLoopTo stop fuel fi co (ip + 1) vm1
          | other => other
        else .done vm
      else .done vm

end

/-- The number of operand-bearing bytes (`OpLoad`, `OpConst`, `OpStore`) in a
list of bytes. -/
def operandCount (bs : List Nat) : Nat :=
  bs.countP (fun b => b == OpLoad || b == OpConst || b == OpStore)

/-- The machine in which `returnNone` has run to its end. -/
def returnNoneFinal : Vm Int :=
  { frames := [freshFrame 0], last := some NoneObj,
    heap := [NewCode ⟨[OpConst, OpRet]⟩ ⟨[NoneObj]⟩ ⟨[]⟩ ⟨[]⟩], out := [] }

/-- The code unit `LoadVar x, LoadVar x, Add, Return` with the single name `x`.
The listing `NewFrame` prints of it reads `vars[1]` for the second `LoadVar`. -/
def loadTwice : Code Int :=
  NewCode ⟨[OpLoad, OpLoad, OpAdd, OpRet]⟩ ⟨[]⟩ ⟨["x"]⟩ ⟨[0, 0]⟩

/-- The code unit `LoadConst f, Call` with the operand index `k` for the call,
`f` a function of declared arity `n` on the code object 1. -/
def callFn (n k : Int) : Code Int :=
  NewCode ⟨[OpConst, OpCall]⟩ ⟨[FuncObj "f" n 1]⟩ ⟨[]⟩ ⟨[0, k]⟩

/-- The code unit `LoadConst 1, Return, LoadConst h, Call`, `h` the function of
the code object 2. -/
def returnThenCall : Code Int :=
  NewCode ⟨[OpConst, OpRet, OpConst, OpCall]⟩ ⟨[NumObj 1, FuncObj "h" 0 2]⟩ ⟨[]⟩ ⟨[0, 1, 0]⟩

/-- The machine in which `callFn n k`, run on a fresh frame with `loadTwice` as
code object 1, has panicked in `NewFrame`: the function is popped, the operand
index `k` of the call is still in the queue, no frame is pushed. -/
def listingPanicked (n k : Int) : Vm Int :=
  { frames := [freshFrame 0], last := none,
    heap := [NewCode ⟨[OpConst, OpCall]⟩ ⟨[FuncObj "f" n 1]⟩ ⟨[]⟩ ⟨[k]⟩, loadTwice],
    out := [] }

/-! ## Basic facts -/

theorem popStack_snoc (f : Frame ν) (xs : List (Object ν)) (x : Object ν)
    (h : f.stack.Val = xs ++ [x]) :
    popStack f = some (x, { f with stack := ⟨xs⟩ }) := by
  simp [popStack, Stack.Pop, Stack.Len, h]

theorem popStack_nil (f : Frame ν) (h : f.stack.Val = []) : popStack f = none := by
  simp [popStack, Stack.Pop, Stack.Len, h]

theorem popOffset_cons (c : Code ν) (k : Int) (q : List Int) (h : c.offsets.Val = k :: q) :
    popOffset c = some (k, { c with offsets := ⟨q⟩ }) := by
  simp [popOffset, Stack.Pop, Stack.Len, h]

theorem popOffset_nil (c : Code ν) (h : c.offsets.Val = []) : popOffset c = none := by
  simp [popOffset, Stack.Pop, Stack.Len, h]

section
variable [Add ν] [Sub ν] [Mul ν] [Div ν] [One ν]

/-- One round of the loop of `eval` on a byte other than `OpCall`. -/
theorem evalLoop_succ_op (fuel fi co ip : Nat) (vm : Vm ν) (c : Code ν) (b : Nat)
    (hc : vm.heap[co]? = some c) (hb : c.bytes.Val[ip]? = some b) (hcall : b ≠ OpCall) :
    evalLoop (fuel + 1) fi co ip vm =
      match execOp b fi co vm with
      | .done vm1 => evalLoop fuel fi co (ip + 1) vm1
      | other => other := by
  obtain ⟨hlt, hget⟩ := List.getElem?_eq_some_iff.mp hb
  simp only [evalLoop, hc, hlt, dite_true, hget, if_neg hcall]

/-- The four arithmetic bytes on two popped objects: what `execOp` does once the
stack is known to end in `y, x`. -/
theorem execOp_arith (b fi co : Nat) (vm : Vm ν) (c : Code ν) (f : Frame ν)
    (rest : List (Object ν)) (x y : Object ν)
    (hc : vm.heap[co]? = some c) (hf : vm.frames[fi]? = some f)
    (hs : f.stack.Val = rest ++ [y, x])
    (hop : b = OpAdd ∨ b = OpSub ∨ b = OpMul ∨ b = OpDiv) :
    execOp b fi co vm =
      match FourOperations x y b with
      | none => .panicked none (vm.setFrame fi { f with stack := ⟨rest⟩ })
      | some none => .failed (.fourArithmetic x y) (vm.setFrame fi { f with stack := ⟨rest⟩ })
      | some (some val) => .done (vm.setFrame fi { f with stack := ⟨rest ++ [val]⟩ }) := by
  have h1 : popStack f = some (x, { f with stack := ⟨rest ++ [y]⟩ }) :=
    popStack_snoc f (rest ++ [y]) x (by simp [hs])
  have h2 : popStack ({ f with stack := ⟨rest ++ [y]⟩ } : Frame ν)
      = some (y, { f with stack := ⟨rest⟩ }) :=
    popStack_snoc _ rest y rfl
  have hne : b ≠ OpLoad ∧ b ≠ OpConst ∧ b ≠ OpStore := by
    rcases hop with h | h | h | h <;> subst h <;> decide
  unfold execOp
  simp only [hc, hf, if_neg hne.1, if_neg hne.2.1, if_neg hne.2.2, if_pos hop, h1, h2]
  cases FourOperations x y b with
  | none => rfl
  | some r => cases r <;> simp [pushStack, Stack.Push]

end

/-! ## C1: `OpRet` and the rest of the frame -/

section
variable [Add ν] [Sub ν] [Mul ν] [Div ν] [One ν]

/-- C1 (the code at the failing input): on `LoadConst a, Return, LoadConst b,
Return` the loop of `eval` goes on after the first `OpRet`; with enough fuel
`eval` returns `nil` and leaves `b`, the object popped by the second `OpRet`, in
`last`, whatever `a` and `b` are. -/
theorem ret_does_not_end_frame (a b : Object ν) (fuel : Nat) :
    eval (fuel + 5) (initVm [retProg a b]) =
      .done { frames := [freshFrame 0], last := some b,
              heap := [NewCode ⟨[OpConst, OpRet, OpConst, OpRet]⟩ ⟨[a, b]⟩ ⟨[]⟩ ⟨[]⟩],
              out := [] } := by
  simp [eval, enter, evalLoop, execOp, initVm, retProg, freshFrame, NewCode, Vm.topFrame,
    popOffset, popStack, pushStack, Stack.Pop, Stack.Push, Stack.Len, Stack.index,
    Vm.setCode, Vm.setFrame]

end

/-! ## C2: operand order of the arithmetic bytes -/

/-- C2 (counterexample): with `ν := ℤ`, whose subtraction agrees with `float64` on
these numbers, `LoadConst 5, LoadConst 3, Sub` leaves `3 - 5 = -2` on the stack,
not `5 - 3`. -/
theorem sub_operand_order_counterexample :
    eval 4 (initVm [binProg OpSub (NumObj (5 : Int)) (NumObj 3)])
        = .done (binFinal OpSub (NumObj 5) (NumObj 3) [NumObj (-2)])
      ∧ eval 4 (initVm [binProg OpSub (NumObj (5 : Int)) (NumObj 3)])
        ≠ .done (binFinal OpSub (NumObj 5) (NumObj 3) [NumObj (5 - 3)]) := by
  decide

section
variable [Add ν] [Sub ν] [Mul ν] [Div ν] [One ν]

/-- C2 (amended): for all numbers `a` and `b`, `LoadConst a, LoadConst b, Sub`
returns with exactly `b - a` on the evaluation stack and `LoadConst a,
LoadConst b, Div` with exactly `b / a`: the object popped first (`b`, pushed
last) is the left-hand operand, the object popped second (`a`) the right-hand
one. -/
theorem sub_div_operand_order (a b : ν) (fuel : Nat) :
    eval (fuel + 4) (initVm [binProg OpSub (NumObj a) (NumObj b)])
        = .done (binFinal OpSub (NumObj a) (NumObj b) [NumObj (b - a)])
      ∧ eval (fuel + 4) (initVm [binProg OpDiv (NumObj a) (NumObj b)])
        = .done (binFinal OpDiv (NumObj a) (NumObj b) [NumObj (b / a)]) := by
  constructor <;>
  simp [eval, enter, evalLoop, execOp, initVm, binProg, binFinal, freshFrame, NewCode,
    Vm.topFrame, popOffset, popStack, pushStack, Stack.Pop, Stack.Push, Stack.Len,
    Stack.index, Vm.setCode, Vm.setFrame, FourOperations, Object.typeOf, Object.Value,
    assertFloat64]

end

/-! ## C9, C10: operands that are not numbers -/

section
variable [Add ν] [Sub ν] [Mul ν] [Div ν]

/-- The function `FourOperations` returns `nil` as soon as one operand is a string or none. -/
theorem FourOperations_str_none (x y : Object ν) (op : Nat)
    (h : (x.typeOf = ObjType.Str ∨ x.typeOf = ObjType.None)
          ∨ (y.typeOf = ObjType.Str ∨ y.typeOf = ObjType.None)) :
    FourOperations x y op = some none := by
  unfold FourOperations
  by_cases h1 : x.typeOf = ObjType.None ∨ y.typeOf = ObjType.None
  · simp [h1]
  · have h2 : x.typeOf = ObjType.Str ∨ y.typeOf = ObjType.Str := by
      rcases h with (h | h) | (h | h)
      · exact Or.inl h
      · exact absurd (Or.inl h) h1
      · exact Or.inr h
      · exact absurd (Or.inr h) h1
    simp [h1, h2]

/-- The function `FourOperations` panics on a function and a number, in either order: the
`.(float64)` assertion on the function's `Value()`, its name, fails. -/
theorem FourOperations_func_num (name : String) (args : Int) (code : Nat) (n : ν) (op : Nat) :
    FourOperations (FuncObj name args code) (NumObj n) op = none
      ∧ FourOperations (NumObj n) (FuncObj name args code) op = none := by
  constructor <;> simp [FourOperations, Object.typeOf, Object.Value, assertFloat64]

variable [One ν]

/-- C9: when the loop of `eval` is at one of `OpAdd`, `OpSub`, `OpMul`, `OpDiv` and
one of the two objects it pops (`x` first, then `y`) is a string or none, whatever
the other is, `eval` returns the `four arithmetic error`; in the state it leaves
the two objects are popped and nothing has been pushed. -/
theorem arith_str_none_type_mismatch (fuel fi co ip b : Nat) (vm : Vm ν) (c : Code ν)
    (f : Frame ν) (rest : List (Object ν)) (x y : Object ν)
    (hc : vm.heap[co]? = some c) (hb : c.bytes.Val[ip]? = some b)
    (hop : b = OpAdd ∨ b = OpSub ∨ b = OpMul ∨ b = OpDiv)
    (hf : vm.frames[fi]? = some f) (hs : f.stack.Val = rest ++ [y, x])
    (hxy : (x.typeOf = ObjType.Str ∨ x.typeOf = ObjType.None)
            ∨ (y.typeOf = ObjType.Str ∨ y.typeOf = ObjType.None)) :
    evalLoop (fuel + 1) fi co ip vm
      = .failed (.fourArithmetic x y) (vm.setFrame fi { f with stack := ⟨rest⟩ }) := by
  have hcall : b ≠ OpCall := by
    rcases hop with h | h | h | h <;> subst h <;> decide
  rw [evalLoop_succ_op fuel fi co ip vm c b hc hb hcall,
    execOp_arith b fi co vm c f rest x y hc hf hs hop, FourOperations_str_none x y b hxy]

/-- C9 (witness): adding the string `"s"` (popped first) to the number `1` fails,
and the stack is left empty. -/
theorem arith_str_none_type_mismatch_witness :
    evalLoop 1 0 0 0 (opVm OpAdd [NumObj (1 : Int), StrObj "s"])
      = .failed (.fourArithmetic (StrObj "s") (NumObj 1)) (opVm OpAdd []) :=
  arith_str_none_type_mismatch 0 0 0 0 OpAdd (opVm OpAdd [NumObj (1 : Int), StrObj "s"])
    (NewCode ⟨[OpAdd]⟩ ⟨[]⟩ ⟨[]⟩ ⟨[]⟩)
    { code := 0, stack := ⟨[NumObj 1, StrObj "s"]⟩, localVar := [], builtin := [] }
    [] (StrObj "s") (NumObj 1) rfl rfl (Or.inl rfl) rfl rfl (Or.inl (Or.inl rfl))

/-- C10 (the code at the failing input): when the loop of `eval` is at one of the
four arithmetic bytes and the two objects it pops are a function and a number, in
either order, `eval` does not return the `four arithmetic error`: it panics (a
failed `.(float64)` assertion in `FourOperations`). -/
theorem arith_func_operand_panics (fuel fi co ip b : Nat) (vm : Vm ν) (c : Code ν)
    (f : Frame ν) (rest : List (Object ν)) (x y : Object ν)
    (name : String) (args : Int) (code : Nat) (n : ν)
    (hc : vm.heap[co]? = some c) (hb : c.bytes.Val[ip]? = some b)
    (hop : b = OpAdd ∨ b = OpSub ∨ b = OpMul ∨ b = OpDiv)
    (hf : vm.frames[fi]? = some f) (hs : f.stack.Val = rest ++ [y, x])
    (hxy : (x = FuncObj name args code ∧ y = NumObj n)
            ∨ (x = NumObj n ∧ y = FuncObj name args code)) :
    evalLoop (fuel + 1) fi co ip vm
      = .panicked none (vm.setFrame fi { f with stack := ⟨rest⟩ }) := by
  have hcall : b ≠ OpCall := by
    rcases hop with h | h | h | h <;> subst h <;> decide
  have hfo : FourOperations x y b = none := by
    rcases hxy with ⟨hx, hy⟩ | ⟨hx, hy⟩
    · rw [hx, hy]; exact (FourOperations_func_num name args code n b).1
    · rw [hx, hy]; exact (FourOperations_func_num name args code n b).2
  rw [evalLoop_succ_op fuel fi co ip vm c b hc hb hcall,
    execOp_arith b fi co vm c f rest x y hc hf hs hop, hfo]

/-- C10 (witness): `LoadConst f, LoadConst 1, Add` at the byte `Add`, the function
`f` below the number `1`. -/
theorem arith_func_operand_panics_witness :
    evalLoop 1 0 0 0 (opVm OpAdd [FuncObj "f" 0 1, NumObj (1 : Int)])
      = .panicked none (opVm OpAdd []) :=
  arith_func_operand_panics 0 0 0 0 OpAdd (opVm OpAdd [FuncObj "f" 0 1, NumObj (1 : Int)])
    (NewCode ⟨[OpAdd]⟩ ⟨[]⟩ ⟨[]⟩ ⟨[]⟩)
    { code := 0, stack := ⟨[FuncObj "f" 0 1, NumObj 1]⟩, localVar := [], builtin := [] }
    [] (NumObj 1) (FuncObj "f" 0 1) "f" 0 1 1 rfl rfl (Or.inl rfl) rfl rfl
    (Or.inr ⟨rfl, rfl⟩)

end

/-! ## C5, C6: the arity check and the binding of arguments -/

theorem bindArgs_not_failed (vars : Stack String) (fi k i : Nat) (vm : Vm ν) (n : Frame ν)
    (e : EvalError ν) (s : Vm ν) : bindArgs vars fi k i vm n ≠ .failed e s := by
  induction k generalizing i vm n with
  | zero => simp [bindArgs]
  | succ k ih =>
    unfold bindArgs
    split
    · simp
    · split
      · simp
      · split
        · simp
        · exact ih _ _ _

theorem bindArgs_not_outOfFuel (vars : Stack String) (fi k i : Nat) (vm : Vm ν) (n : Frame ν) :
    bindArgs vars fi k i vm n ≠ .outOfFuel := by
  induction k generalizing i vm n with
  | zero => simp [bindArgs]
  | succ k ih =>
    unfold bindArgs
    split
    · simp
    · split
      · simp
      · split
        · simp
        · exact ih _ _ _

/-- The case `OpCall` up to the push of the new frame, once the function on top of the
stack, its code object and the operand index are known. -/
theorem callEnter_eq (fi co : Nat) (vm : Vm ν) (f : Frame ν) (c cc : Code ν)
    (rest : List (Object ν)) (name : String) (n k : Int) (code : Nat) (q : List Int)
    (hf : vm.frames[fi]? = some f) (hs : f.stack.Val = rest ++ [FuncObj name n code])
    (hcc : vm.heap[code]? = some cc) (hd : dissemble cc = true)
    (hc : vm.heap[co]? = some c) (hq : c.offsets.Val = k :: q) :
    callEnter fi co vm =
      if k ≠ 0 then
        if k ≠ n then .failed (.functionParameter n k) (afterCallOperand vm fi co f c rest q)
        else
          match (afterCallOperand vm fi co f c rest q).topFrame with
          | none => .panicked none (afterCallOperand vm fi co f c rest q)
          | some top =>
            if (top.stack.Len : Int) < k then
              .failed .dataLoading (afterCallOperand vm fi co f c rest q)
            else
              match bindArgs cc.vars fi k.toNat 0 (afterCallOperand vm fi co f c rest q)
                  (freshFrame code) with
              | .done (vm3, n1) =>
                .done { vm := vm3.pushFrame n1, t := ⟨cc.offsets.Val⟩, callee := code }
              | .failed e s => .failed e s
              | .panicked e s => .panicked e s
              | .outOfFuel => .outOfFuel
      else
        .done { vm := (afterCallOperand vm fi co f c rest q).pushFrame (freshFrame code),
                t := ⟨cc.offsets.Val⟩, callee := code } := by
  unfold callEnter
  simp only [hf, popStack_snoc f rest _ hs, Vm.setFrame, NewFrame, hcc, hd, hc,
    popOffset_cons c k q hq, if_true, Stack.CopyOf, Stack.Len, List.nil_append, List.take_length,
    afterCallOperand, freshFrame, Vm.setCode]

/-- An error returned by `OpCall` itself is one built before the callee runs. -/
theorem callOp_failed (run : Vm ν → Outcome ν (Vm ν)) (fi co : Nat) (vm : Vm ν)
    (e : EvalError ν) (s : Vm ν) (h : callOp run fi co vm = .failed e s) :
    callEnter fi co vm = .failed e s := by
  unfold callOp at h
  cases hce : callEnter fi co vm with
  | done ctx =>
    rw [hce] at h
    cases hr : run ctx.vm <;> simp [hr] at h
  | failed e1 s1 => rw [hce] at h; simpa using h
  | panicked e1 s1 => rw [hce] at h; simp at h
  | outOfFuel => rw [hce] at h; simp at h

section
variable [Add ν] [Sub ν] [Mul ν] [Div ν] [One ν]

/-- One round of the loop of `eval` on the byte `OpCall`. -/
theorem evalLoop_succ_call (fuel fi co ip : Nat) (vm : Vm ν) (c : Code ν)
    (hc : vm.heap[co]? = some c) (hb : c.bytes.Val[ip]? = some OpCall) :
    evalLoop (fuel + 1) fi co ip vm =
      match callOp (enter (evalLoop fuel)) fi co vm with
      | .done vm1 => evalLoop fuel fi co (ip + 1) vm1
      | other => other := by
  obtain ⟨hlt, hget⟩ := List.getElem?_eq_some_iff.mp hb
  simp only [evalLoop, hc, hlt, dite_true, hget, if_true]

/-- The arity check of `OpCall`: a `OpCall` that finds on top of the stack a function
of declared arity `n` whose frame can be built, and dequeues the operand index `k`, returns the
`function parameter error` exactly when `k ≠ 0` and `k ≠ n`, whatever the run of
the callee would do; the error then reports `n` and `k`, it is returned with the
function popped, the index dequeued and no frame pushed, and `eval`, when its
loop is at this `OpCall`, returns it.  With `k = 0` it is never returned, whatever
`n`. -/
theorem arity_mismatch_iff (run : Vm ν → Outcome ν (Vm ν)) (fi co : Nat) (vm : Vm ν)
    (f : Frame ν) (c cc : Code ν) (rest : List (Object ν)) (name : String) (n k : Int)
    (code : Nat) (q : List Int)
    (hf : vm.frames[fi]? = some f) (hs : f.stack.Val = rest ++ [FuncObj name n code])
    (hcc : vm.heap[code]? = some cc) (hd : dissemble cc = true)
    (hc : vm.heap[co]? = some c) (hq : c.offsets.Val = k :: q) :
    ((∃ r g s, callOp run fi co vm = .failed (.functionParameter r g) s) ↔ (k ≠ 0 ∧ k ≠ n))
      ∧ (k ≠ 0 ∧ k ≠ n →
          callOp run fi co vm
            = .failed (.functionParameter n k) (afterCallOperand vm fi co f c rest q))
      ∧ (k ≠ 0 ∧ k ≠ n → ∀ fuel ip, c.bytes.Val[ip]? = some OpCall →
          evalLoop (fuel + 1) fi co ip vm
            = .failed (.functionParameter n k) (afterCallOperand vm fi co f c rest q)) := by
  have key := callEnter_eq fi co vm f c cc rest name n k code q hf hs hcc hd hc hq
  have fwd : ∀ run1 : Vm ν → Outcome ν (Vm ν), k ≠ 0 ∧ k ≠ n →
      callOp run1 fi co vm
        = .failed (.functionParameter n k) (afterCallOperand vm fi co f c rest q) := by
    rintro run1 ⟨h0, hn⟩
    simp [callOp, key, h0, hn]
  refine ⟨⟨?_, fun h => ⟨n, k, _, fwd run h⟩⟩, fwd run, ?_⟩
  · rintro ⟨r, g, s, hfail⟩
    have hce := callOp_failed run fi co vm _ s hfail
    rw [key] at hce
    by_cases h0 : k = 0
    · simp [h0] at hce
    · by_cases hn : k = n
      · exfalso
        rw [if_pos h0, if_neg (not_not.mpr hn)] at hce
        cases htf : (afterCallOperand vm fi co f c rest q).topFrame with
        | none => simp [htf] at hce
        | some top =>
          simp only [htf] at hce
          by_cases hlen : (top.stack.Len : Int) < k
          · simp [hlen] at hce
          · rw [if_neg hlen] at hce
            cases hb : bindArgs cc.vars fi k.toNat 0 (afterCallOperand vm fi co f c rest q)
                (freshFrame code) with
            | done p => simp [hb] at hce
            | failed e1 s1 => exact bindArgs_not_failed _ _ _ _ _ _ e1 s1 hb
            | panicked e1 s1 => simp [hb] at hce
            | outOfFuel => simp [hb] at hce
      · exact ⟨h0, hn⟩
  · intro hk fuel ip hb
    rw [evalLoop_succ_call fuel fi co ip vm c hc hb, fwd _ hk]

/-- The arity check on a function declared with arity 2 called with one argument
supplied. -/
theorem arity_mismatch_iff_witness :
    callOp (enter (evalLoop 10)) 0 0 (callVm 2 1 ["x", "y"] [NumObj 7])
      = .failed (.functionParameter 2 1)
          (afterCallOperand (callVm 2 1 ["x", "y"] [NumObj 7]) 0 0
            { code := 0, stack := ⟨[NumObj 7, FuncObj "foo" 2 1]⟩, localVar := [],
              builtin := [] }
            (NewCode ⟨[OpCall]⟩ ⟨[]⟩ ⟨[]⟩ ⟨[1]⟩) [NumObj 7] []) :=
  (arity_mismatch_iff (enter (evalLoop 10)) 0 0 (callVm 2 1 ["x", "y"] [NumObj 7])
    { code := 0, stack := ⟨[NumObj 7, FuncObj "foo" 2 1]⟩, localVar := [], builtin := [] }
    (NewCode ⟨[OpCall]⟩ ⟨[]⟩ ⟨[]⟩ ⟨[1]⟩)
    (NewCode ⟨[OpConst, OpRet]⟩ ⟨[NoneObj]⟩ ⟨["x", "y"]⟩ ⟨[0]⟩)
    [NumObj 7] "foo" 2 1 1 [] rfl rfl rfl (by decide) rfl rfl).2.1 ⟨by decide, by decide⟩

end

namespace Table

theorem lookUp_store_same (t : Table ν) (k : String) (v : Object ν) :
    lookUp (store t k v) k = some v := by
  induction t with
  | nil => simp [store, lookUp]
  | cons p rest ih =>
    obtain ⟨k1, v1⟩ := p
    by_cases h : k1 = k
    · simp [store, lookUp, h]
    · simp [store, lookUp, h, ih]

theorem lookUp_store_other (t : Table ν) (k k1 : String) (v : Object ν) (h : k1 ≠ k) :
    lookUp (store t k v) k1 = lookUp t k1 := by
  induction t with
  | nil => simp [store, lookUp, Ne.symm h]
  | cons p rest ih =>
    obtain ⟨k2, v2⟩ := p
    by_cases h2 : k2 = k
    · subst h2
      simp [store, lookUp, Ne.symm h]
    · by_cases h3 : k2 = k1
      · subst h3
        simp [store, lookUp, h2]
      · simp [store, lookUp, h2, h3, ih]

end Table

theorem bindAll_nil_names (t : Table ν) (objs : List (Object ν)) : bindAll t [] objs = t := by
  simp [bindAll]

theorem bindAll_nil_objs (t : Table ν) (names : List String) : bindAll t names [] = t := by
  simp [bindAll]

theorem bindAll_cons (t : Table ν) (x : String) (xs : List String) (o : Object ν)
    (os : List (Object ν)) :
    bindAll t (x :: xs) (o :: os) = bindAll (Table.store t x o) xs os := by
  simp [bindAll]

/-- A name that is not assigned keeps its binding. -/
theorem lookUp_bindAll_of_not_mem (t : Table ν) (names : List String) (objs : List (Object ν))
    (name : String) (h : name ∉ names) :
    Table.lookUp (bindAll t names objs) name = Table.lookUp t name := by
  induction names generalizing t objs with
  | nil => simp [bindAll]
  | cons x xs ih =>
    cases objs with
    | nil => simp [bindAll]
    | cons o os =>
      rw [bindAll_cons, ih _ _ (fun hm => h (List.mem_cons_of_mem _ hm))]
      exact Table.lookUp_store_other t x name o (fun he => h (he ▸ List.mem_cons_self _ _))

/-- Every name bound after the assignments was bound before or is one of the
names assigned. -/
theorem lookUp_bindAll_some (t : Table ν) (names : List String) (objs : List (Object ν))
    (name : String) (v : Object ν) (h : Table.lookUp (bindAll t names objs) name = some v) :
    name ∈ names ∨ Table.lookUp t name = some v := by
  by_cases hm : name ∈ names
  · exact Or.inl hm
  · rw [lookUp_bindAll_of_not_mem _ _ _ _ hm] at h
    exact Or.inr h

theorem set_eq_self_of_getElem? {α : Type} (l : List α) (i : Nat) (a : α)
    (h : l[i]? = some a) : l.set i a = l := by
  apply List.ext_getElem?
  intro j
  rw [List.getElem?_set]
  by_cases hij : i = j
  · subst hij
    simp [h, (List.getElem?_eq_some_iff.mp h).1]
  · simp [hij]

theorem Vm.setFrame_setFrame (vm : Vm ν) (fi : Nat) (f g : Frame ν) :
    (vm.setFrame fi f).setFrame fi g = vm.setFrame fi g := by
  simp [Vm.setFrame]

theorem Vm.getFrame_setFrame (vm : Vm ν) (fi : Nat) (f g : Frame ν)
    (h : vm.frames[fi]? = some f) : (vm.setFrame fi g).frames[fi]? = some g := by
  have hlt : fi < vm.frames.length := (List.getElem?_eq_some_iff.mp h).1
  simp [Vm.setFrame, hlt]

/-- The argument loop of `OpCall`: with `k` objects `vals` on top of the stack of
the frame at `fi` and `k` names from position `i` on, it pops the `k` objects and
assigns them, in the order popped, to these names. -/
theorem bindArgs_eq (vars : Stack String) (fi k i : Nat) (vm : Vm ν) (n f : Frame ν)
    (rest vals : List (Object ν))
    (hf : vm.frames[fi]? = some f) (hs : f.stack.Val = rest ++ vals)
    (hlen : vals.length = k) (hv : i + k ≤ vars.Val.length) :
    bindArgs vars fi k i vm n
      = .done (vm.setFrame fi { f with stack := ⟨rest⟩ },
               { n with localVar := bindAll n.localVar ((vars.Val.drop i).take k) vals.reverse }) := by
  induction k generalizing i vm n f vals with
  | zero =>
    have hnil : vals = [] := List.length_eq_zero.mp hlen
    subst hnil
    have hfe : ({ f with stack := ⟨rest⟩ } : Frame ν) = f := by
      cases f with
      | mk code stack localVar builtin =>
        cases stack with
        | mk Val => simp at hs; simp [hs]
    have hvm : vm.setFrame fi f = vm := by
      cases vm with
      | mk frames last heap out =>
        simp only [Vm.setFrame, Vm.mk.injEq, and_true]
        exact set_eq_self_of_getElem? _ _ _ (by simpa using hf)
    simp [bindArgs, bindAll, hfe, hvm]
  | succ k ih =>
    obtain ⟨vals1, y, rfl⟩ : ∃ vals1 y, vals = vals1 ++ [y] := by
      rcases List.eq_nil_or_concat vals with h | ⟨l, a, h⟩
      · subst h; simp at hlen
      · exact ⟨l, a, by simpa using h⟩
    have hlen1 : vals1.length = k := by simpa using hlen
    have hi : i < vars.Val.length := by omega
    have hx : vars.Val[i]? = some vars.Val[i] := List.getElem?_eq_getElem hi
    have hpop : popStack f = some (y, { f with stack := ⟨rest ++ vals1⟩ }) :=
      popStack_snoc f (rest ++ vals1) y (by simp [hs])
    unfold bindArgs
    simp only [hx, hf, hpop]
    rw [ih (i + 1) (vm.setFrame fi { f with stack := ⟨rest ++ vals1⟩ })
      { n with localVar := Table.store n.localVar vars.Val[i] y }
      { f with stack := ⟨rest ++ vals1⟩ } vals1
      (Vm.getFrame_setFrame vm fi f _ hf) rfl hlen1 (by omega)]
    have hdrop : (vars.Val.drop i).take (k + 1)
        = vars.Val[i] :: (vars.Val.drop (i + 1)).take k := by
      rw [List.drop_eq_getElem_cons hi, List.take_succ_cons]
    simp [Vm.setFrame_setFrame, hdrop, bindAll_cons]

theorem Vm.topFrame_eq (vm : Vm ν) (fi : Nat) (htop : fi + 1 = vm.frames.length) :
    vm.topFrame = vm.frames[fi]? := by
  have h : vm.frames.length - 1 = fi := by omega
  simp [Vm.topFrame, h]

theorem writeBack_same (fi co : Nat) (vm : Vm ν) (c : Code ν) (f : Frame ν)
    (hc : vm.heap[co]? = some c) (hf : vm.frames[fi]? = some f) :
    writeBack fi co vm ⟨c, f, none, none⟩ = vm := by
  cases vm with
  | mk frames last heap out =>
    have h1 := set_eq_self_of_getElem? _ _ _ hf
    have h2 := set_eq_self_of_getElem? _ _ _ hc
    simp only at h1 h2
    simp [writeBack, h1, h2]

section
variable [Add ν] [Sub ν] [Mul ν] [Div ν] [One ν]

theorem execOp_eq_lift (b fi co : Nat) (vm : Vm ν) (c : Code ν) (f : Frame ν)
    (hc : vm.heap[co]? = some c) (hf : vm.frames[fi]? = some f) :
    execOp b fi co vm = liftResult fi co vm (opLocal b c f) := by
  cases vm with
  | mk frames last heap out =>
    have h1 := set_eq_self_of_getElem? _ _ _ hf
    have h2 := set_eq_self_of_getElem? _ _ _ hc
    simp only at h1 h2 hc hf
    unfold execOp opLocal
    simp only [hc, hf]
    by_cases hLoad : b = OpLoad
    · simp only [hLoad, if_true]
      cases popOffset c with
      | none => simp [liftResult, writeBack, h1, h2]
      | some p =>
        obtain ⟨i, c1⟩ := p
        simp only []
        cases c.vars.index i with
        | none => simp [liftResult, writeBack, Vm.setCode, h1]
        | some nam =>
          simp only []
          cases Table.lookUp f.localVar nam with
          | none => simp [liftResult, writeBack, Vm.setCode, h1]
          | some val => simp [liftResult, writeBack, Vm.setCode, Vm.setFrame]
    · simp only [hLoad, if_false]
      by_cases hConst : b = OpConst
      · simp only [hConst, if_true]
        cases popOffset c with
        | none => simp [liftResult, writeBack, h1, h2]
        | some p =>
          obtain ⟨i, c1⟩ := p
          simp only []
          cases c.cons.index i with
          | none => simp [liftResult, writeBack, Vm.setCode, h1]
          | some val => simp [liftResult, writeBack, Vm.setCode, Vm.setFrame]
      · simp only [hConst, if_false]
        by_cases hStore : b = OpStore
        · simp only [hStore, if_true]
          cases popStack f with
          | none => simp [liftResult, writeBack, h1, h2]
          | some p =>
            obtain ⟨val, f1⟩ := p
            simp only []
            cases popOffset c with
            | none => simp [liftResult, writeBack, Vm.setFrame, h2]
            | some p =>
              obtain ⟨i, c1⟩ := p
              simp only []
              cases c.vars.index i with
              | none => simp [liftResult, writeBack, Vm.setCode, Vm.setFrame]
              | some nam => simp [liftResult, writeBack, Vm.setCode, Vm.setFrame]
        · simp only [hStore, if_false]
          by_cases hArith : b = OpAdd ∨ b = OpSub ∨ b = OpMul ∨ b = OpDiv
          · simp only [hArith, if_true]
            cases popStack f with
            | none => simp [liftResult, writeBack, h1, h2]
            | some p =>
              obtain ⟨x, f1⟩ := p
              simp only []
              cases popStack f1 with
              | none => simp [liftResult, writeBack, Vm.setFrame, h2]
              | some p =>
                obtain ⟨y, f2⟩ := p
                simp only []
                cases FourOperations x y b with
                | none => simp [liftResult, writeBack, Vm.setFrame, h2]
                | some r =>
                  cases r with
                  | none => simp [liftResult, writeBack, Vm.setFrame, h2]
                  | some val => simp [liftResult, writeBack, Vm.setFrame, h2]
          · simp only [hArith, if_false]
            by_cases hInc : b = OpAddO ∨ b = OpSubO
            · simp only [hInc, if_true]
              cases popStack f with
              | none => simp [liftResult, writeBack, h1, h2]
              | some p =>
                obtain ⟨val, f1⟩ := p
                cases val <;> simp [liftResult, writeBack, Vm.setFrame, h2]
            · simp only [hInc, if_false]
              by_cases hPut : b = OpPut
              · simp only [hPut, if_true]
                cases peekStack f <;> simp [liftResult, writeBack, h1, h2]
              · simp only [hPut, if_false]
                by_cases hPop : b = OpPop
                · simp only [hPop, if_true]
                  cases popStack f with
                  | none => simp [liftResult, writeBack, h1, h2]
                  | some p => simp [liftResult, writeBack, Vm.setFrame, h2]
                · simp only [hPop, if_false]
                  by_cases hRet : b = OpRet
                  · simp only [hRet, if_true]
                    cases popStack f with
                    | none => simp [liftResult, writeBack, h1, h2]
                    | some p => simp [liftResult, writeBack, Vm.setFrame, h2]
                  · simp [hRet, liftResult, writeBack, h1, h2]
end

theorem popOffset_sameText (c c1 : Code ν) (i : Int) (h : popOffset c = some (i, c1)) :
    Code.SameText c c1 := by
  unfold popOffset at h
  split at h
  · simp at h
  · simp only [Option.some.injEq, Prod.mk.injEq] at h
    obtain ⟨_, rfl⟩ := h
    exact ⟨rfl, rfl, rfl⟩

theorem sameText_refl (c : Code ν) : Code.SameText c c := ⟨rfl, rfl, rfl⟩

theorem sameText_trans {c c1 c2 : Code ν} (h1 : Code.SameText c c1)
    (h2 : Code.SameText c1 c2) : Code.SameText c c2 :=
  ⟨h2.1.trans h1.1, h2.2.1.trans h1.2.1, h2.2.2.trans h1.2.2⟩

theorem stable_refl (fi : Nat) (vm : Vm ν) : Stable fi vm vm :=
  ⟨rfl, fun _ _ => rfl, rfl, fun _ c h => ⟨c, h, sameText_refl c⟩⟩

theorem stable_trans {fi : Nat} {vm vm1 vm2 : Vm ν} (h1 : Stable fi vm vm1)
    (h2 : Stable fi vm1 vm2) : Stable fi vm vm2 := by
  refine ⟨h2.1.trans h1.1, fun j hj => (h2.2.1 j hj).trans (h1.2.1 j hj),
    h2.2.2.1.trans h1.2.2.1, ?_⟩
  intro p c hp
  obtain ⟨c1, hc1, hs1⟩ := h1.2.2.2 p c hp
  obtain ⟨c2, hc2, hs2⟩ := h2.2.2.2 p c1 hc1
  exact ⟨c2, hc2, sameText_trans hs1 hs2⟩

theorem stable_mono {fi fj : Nat} {vm vm1 : Vm ν} (h : Stable fi vm vm1) (hle : fj ≤ fi) :
    Stable fj vm vm1 :=
  ⟨h.1, fun j hj => h.2.1 j (Nat.lt_of_lt_of_le hj hle), h.2.2.1, h.2.2.2⟩

/-- Writing a frame at `fi` and a code object with the same text at `co`. -/
theorem stable_of_sets (fi co : Nat) (vm vm1 : Vm ν) (c d : Code ν) (g : Frame ν)
    (hc : vm.heap[co]? = some c) (hd : Code.SameText c d)
    (hfr : vm1.frames = vm.frames.set fi g) (hhp : vm1.heap = vm.heap.set co d) :
    Stable fi vm vm1 := by
  refine ⟨by simp [hfr], ?_, by simp [hhp], ?_⟩
  · intro j hj
    rw [hfr, List.getElem?_set_ne (Nat.ne_of_gt hj)]
  · intro p e hp
    rw [hhp, List.getElem?_set]
    by_cases hpc : co = p
    · subst hpc
      have hlt : co < vm.heap.length := (List.getElem?_eq_some_iff.mp hc).1
      rw [hc] at hp
      simp only [Option.some.injEq] at hp
      subst hp
      exact ⟨d, by simp [hlt], hd⟩
    · exact ⟨e, by simp [hpc, hp], sameText_refl e⟩

section
variable [Add ν] [Sub ν] [Mul ν] [Div ν] [One ν]

/-- A byte leaves the text of the code object alone. -/
theorem opLocal_sameText (b : Nat) (c : Code ν) (f : Frame ν) (e : OpEffect ν)
    (h : opLocal b c f = .next e) : Code.SameText c e.c := by
  unfold opLocal at h
  repeat' split at h
  all_goals first
    | (simp only [OpResult.next.injEq] at h
       subst h
       first
         | exact sameText_refl _
         | (apply popOffset_sameText; assumption))
    | (simp at h)

/-- A byte other than `OpCall` that lets the loop go on leaves the machine
`Stable`. -/
theorem execOp_stable (b fi co : Nat) (vm vm1 : Vm ν) (h : execOp b fi co vm = .done vm1) :
    Stable fi vm vm1 := by
  cases hc : vm.heap[co]? with
  | none => simp [execOp, hc] at h
  | some c =>
    cases hf : vm.frames[fi]? with
    | none => simp [execOp, hc, hf] at h
    | some f =>
      rw [execOp_eq_lift b fi co vm c f hc hf] at h
      cases hr : opLocal b c f with
      | next e =>
        rw [hr] at h
        simp only [liftResult, Outcome.done.injEq] at h
        subst h
        exact stable_of_sets fi co vm _ c e.c e.f hc (opLocal_sameText b c f e hr) rfl rfl
      | failed err e => rw [hr] at h; simp [liftResult] at h
      | panicked e => rw [hr] at h; simp [liftResult] at h

end

/-! ## What a successful `OpCall` must have found -/

theorem popStack_some (f f1 : Frame ν) (x : Object ν) (h : popStack f = some (x, f1)) :
    f.stack.Val = f1.stack.Val ++ [x] ∧ f1 = { f with stack := ⟨f1.stack.Val⟩ } := by
  rcases List.eq_nil_or_concat f.stack.Val with hnil | ⟨l, a, hl⟩
  · rw [popStack_nil f hnil] at h
    simp at h
  · have hl1 : f.stack.Val = l ++ [a] := by simpa using hl
    rw [popStack_snoc f l a hl1] at h
    simp only [Option.some.injEq, Prod.mk.injEq] at h
    obtain ⟨rfl, rfl⟩ := h
    exact ⟨hl1, rfl⟩

theorem popOffset_some (c c1 : Code ν) (k : Int) (h : popOffset c = some (k, c1)) :
    ∃ q, c.offsets.Val = k :: q ∧ c1 = { c with offsets := ⟨q⟩ } := by
  cases hq : c.offsets.Val with
  | nil =>
    rw [popOffset_nil c hq] at h
    simp at h
  | cons k1 q =>
    rw [popOffset_cons c k1 q hq] at h
    simp only [Option.some.injEq, Prod.mk.injEq] at h
    obtain ⟨rfl, rfl⟩ := h
    exact ⟨q, rfl, rfl⟩

/-- When the argument loop of `OpCall` comes to its end, the stack of the frame at
`fi` held `k` objects for it and there were `k` names from position `i` on. -/
theorem bindArgs_done_inv (vars : Stack String) (fi k i : Nat) (vm : Vm ν) (n f : Frame ν)
    (r : Vm ν × Frame ν) (hf : vm.frames[fi]? = some f)
    (h : bindArgs vars fi k i vm n = .done r) :
    ∃ rest vals, f.stack.Val = rest ++ vals ∧ vals.length = k
      ∧ (k = 0 ∨ i + k ≤ vars.Val.length) := by
  induction k generalizing i vm n f with
  | zero => exact ⟨f.stack.Val, [], by simp, rfl, Or.inl rfl⟩
  | succ k ih =>
    unfold bindArgs at h
    cases hx : vars.Val[i]? with
    | none => simp [hx] at h
    | some x =>
      have hi : i < vars.Val.length := (List.getElem?_eq_some_iff.mp hx).1
      simp only [hx, hf] at h
      cases hp : popStack f with
      | none => simp [hp] at h
      | some p =>
        obtain ⟨y, f1⟩ := p
        simp only [hp] at h
        obtain ⟨hs, _⟩ := popStack_some f f1 y hp
        obtain ⟨rest, vals, hs1, hlen, hle⟩ :=
          ih (i + 1) (vm.setFrame fi f1) _ f1 (Vm.getFrame_setFrame vm fi f f1 hf) h
        exact ⟨rest, vals ++ [y], by simp [hs, hs1], by simp [hlen], Or.inr (by omega)⟩

/-- A `OpCall` that gets as far as pushing the new frame found a function on top
of the stack of the frame at `fi`, whose frame `NewFrame` could build, an operand
index `k` that is `0` or the declared arity, and `k` objects and names to bind;
the machine it hands to the callee is then determined. -/
theorem callEnter_done_inv (fi co : Nat) (vm : Vm ν) (ctx : CallCtx ν)
    (h : callEnter fi co vm = .done ctx) :
    ∃ (f : Frame ν) (c cc : Code ν) (rest vals : List (Object ν)) (name : String) (n : Int)
      (code : Nat) (k : Int) (q : List Int),
      vm.frames[fi]? = some f ∧ f.stack.Val = rest ++ vals ++ [FuncObj name n code]
        ∧ vm.heap[code]? = some cc ∧ dissemble cc = true
        ∧ vm.heap[co]? = some c ∧ c.offsets.Val = k :: q
        ∧ (k = 0 ∨ k = n) ∧ vals.length = k.toNat ∧ vals.length ≤ cc.vars.Val.length
        ∧ ctx = { vm := (afterCallOperand vm fi co f c rest q).pushFrame
                    { freshFrame code with
                      localVar := bindAll [] (cc.vars.Val.take vals.length) vals.reverse },
                  t := ⟨cc.offsets.Val⟩, callee := code } := by
  cases hf : vm.frames[fi]? with
  | none => simp [callEnter, hf] at h
  | some f =>
    have hfi : fi < vm.frames.length := (List.getElem?_eq_some_iff.mp hf).1
    cases hp : popStack f with
    | none => simp [callEnter, hf, hp] at h
    | some p =>
      obtain ⟨x, f1⟩ := p
      obtain ⟨hs, hf1⟩ := popStack_some f f1 x hp
      cases x with
      | NumObj v => simp [callEnter, hf, hp] at h
      | StrObj v => simp [callEnter, hf, hp] at h
      | NoneObj => simp [callEnter, hf, hp] at h
      | FuncObj name n code =>
        cases hcc : vm.heap[code]? with
        | none => simp [callEnter, hf, hp, NewFrame, Vm.setFrame, hcc] at h
        | some cc =>
          by_cases hd : dissemble cc = true
          · cases hc : vm.heap[co]? with
            | none => simp [callEnter, hf, hp, NewFrame, Vm.setFrame, hcc, hd, hc] at h
            | some c =>
              cases hq : c.offsets.Val with
              | nil =>
                simp [callEnter, hf, hp, NewFrame, Vm.setFrame, hcc, hd, hc,
                  popOffset_nil c hq] at h
              | cons k q =>
                rw [callEnter_eq fi co vm f c cc f1.stack.Val name n k code q hf hs hcc hd hc hq]
                  at h
                by_cases h0 : k = 0
                · rw [if_neg (not_not.mpr h0)] at h
                  simp only [Outcome.done.injEq] at h
                  refine ⟨f, c, cc, f1.stack.Val, [], name, n, code, k, q, rfl, by simpa using hs,
                    hcc, hd, rfl, hq, Or.inl h0, by simp [h0], by simp, ?_⟩
                  rw [← h]
                  simp [bindAll, freshFrame]
                · rw [if_pos h0] at h
                  by_cases hn : k = n
                  · rw [if_neg (not_not.mpr hn)] at h
                    cases htf : (afterCallOperand vm fi co f c f1.stack.Val q).topFrame with
                    | none => simp [htf] at h
                    | some top =>
                      simp only [htf] at h
                      by_cases hlen : (top.stack.Len : Int) < k
                      · simp [hlen] at h
                      · rw [if_neg hlen] at h
                        have hget : (afterCallOperand vm fi co f c f1.stack.Val q).frames[fi]?
                            = some { f with stack := ⟨f1.stack.Val⟩ } := by
                          simp [afterCallOperand, Vm.setFrame, Vm.setCode, hfi]
                        cases hb : bindArgs cc.vars fi k.toNat 0
                            (afterCallOperand vm fi co f c f1.stack.Val q) (freshFrame code) with
                        | done r =>
                          obtain ⟨rest, vals, hs1, hvl, hle⟩ :=
                            bindArgs_done_inv cc.vars fi k.toNat 0 _ _ _ r hget hb
                          have hs1a : f1.stack.Val = rest ++ vals := hs1
                          have hle1 : 0 + k.toNat ≤ cc.vars.Val.length := by
                            rcases hle with h | h
                            · omega
                            · exact h
                          have hb2 := bindArgs_eq cc.vars fi k.toNat 0
                            (afterCallOperand vm fi co f c f1.stack.Val q) (freshFrame code)
                            { f with stack := ⟨f1.stack.Val⟩ } rest vals hget hs1 hvl hle1
                          rw [hb2] at h
                          simp only [Outcome.done.injEq] at h
                          refine ⟨f, c, cc, rest, vals, name, n, code, k, q, rfl,
                            by rw [hs, hs1a], hcc, hd, rfl, hq, Or.inr hn, hvl, by omega, ?_⟩
                          rw [← h, hvl]
                          simp [afterCallOperand, Vm.setFrame, Vm.setCode, freshFrame]
                        | failed e s => simp [hb] at h
                        | panicked e s => simp [hb] at h
                        | outOfFuel => simp [hb] at h
                  · rw [if_pos hn] at h
                    simp at h
          · simp [callEnter, hf, hp, NewFrame, Vm.setFrame, hcc, hd] at h

/-! ## A run keeps the frames below it and the text of the code objects -/

theorem callOp_done_inv (run : Vm ν → Outcome ν (Vm ν)) (fi co : Nat) (vm vm1 : Vm ν)
    (h : callOp run fi co vm = .done vm1) :
    ∃ ctx vm2, callEnter fi co vm = .done ctx ∧ run ctx.vm = .done vm2
      ∧ vm1 = callExit fi ctx.t ctx.callee vm2 := by
  unfold callOp at h
  cases hce : callEnter fi co vm with
  | done ctx =>
    rw [hce] at h
    cases hr : run ctx.vm with
    | done vm2 =>
      simp only [hr, Outcome.done.injEq] at h
      exact ⟨ctx, vm2, rfl, hr, h.symm⟩
    | failed e s => simp [hr] at h
    | panicked e s => simp [hr] at h
    | outOfFuel => simp [hr] at h
  | failed e s => rw [hce] at h; simp at h
  | panicked e s => rw [hce] at h; simp at h
  | outOfFuel => rw [hce] at h; simp at h

/-- The method `popFrame` gives back the frames `fs` when the machine holds them, as they
are, below one more frame. -/
theorem popFrame_frames (vm : Vm ν) (fs : List (Frame ν))
    (hlen : vm.frames.length = fs.length + 1)
    (hfs : ∀ j, j < fs.length → vm.frames[j]? = fs[j]?) :
    vm.popFrame.frames = fs := by
  simp only [Vm.popFrame, hlen, Nat.add_sub_cancel]
  rw [List.drop_of_length_le (by omega), List.append_nil]
  apply List.ext_getElem?
  intro j
  rw [List.getElem?_take]
  by_cases hj : j < fs.length
  · simp [hj, hfs j hj]
  · simp only [hj, if_false]
    exact (List.getElem?_eq_none (by omega)).symm

/-- The case `OpCall` after the callee's run, when that run has kept the frames `fs` below
its own: the queue of the callee's code object is `t` again, the callee's frame is
gone, `last` is empty, and an object the callee left in `last` is on the stack of
the frame at `fi`. -/
theorem callExit_eq (fi : Nat) (t : Stack Int) (callee : Nat) (vm2 : Vm ν)
    (fs : List (Frame ν)) (cc2 : Code ν)
    (hlen : vm2.frames.length = fs.length + 1)
    (hfs : ∀ j, j < fs.length → vm2.frames[j]? = fs[j]?)
    (hcc2 : vm2.heap[callee]? = some cc2) :
    callExit fi t callee vm2 =
      { frames := match vm2.last with
          | none => fs
          | some r =>
            match fs[fi]? with
            | none => fs
            | some f => fs.set fi (pushStack f r),
        last := none,
        heap := vm2.heap.set callee { cc2 with offsets := t },
        out := vm2.out } := by
  have hpf : List.take (vm2.frames.length - 1) vm2.frames
      ++ List.drop (vm2.frames.length - 1 + 1) vm2.frames = fs := by
    have := popFrame_frames vm2 fs hlen hfs
    simpa [Vm.popFrame] using this
  unfold callExit
  simp only [hcc2]
  cases hl : vm2.last with
  | none => simp [Vm.popFrame, Vm.setCode, hl, hpf]
  | some r =>
    cases hfi : fs[fi]? with
    | none => simp [Vm.popFrame, Vm.setCode, hl, hpf, hfi]
    | some f => simp [Vm.setFrame, Vm.popFrame, Vm.setCode, hl, hpf, hfi]

theorem afterCallOperand_stable (vm : Vm ν) (fi co : Nat) (f : Frame ν) (c : Code ν)
    (rest : List (Object ν)) (q : List Int) (hc : vm.heap[co]? = some c) :
    Stable fi vm (afterCallOperand vm fi co f c rest q) :=
  stable_of_sets fi co vm _ c { c with offsets := ⟨q⟩ } { f with stack := ⟨rest⟩ } hc
    ⟨rfl, rfl, rfl⟩ rfl rfl

/-- The case `OpCall` leaves the machine `Stable` when the callee's run does. -/
theorem callOp_stable (run : Vm ν → Outcome ν (Vm ν)) (fi co : Nat) (vm vm1 : Vm ν)
    (hrun : ∀ vm0 vm2, run vm0 = .done vm2 → Stable (vm0.frames.length - 1) vm0 vm2)
    (h : callOp run fi co vm = .done vm1) : Stable fi vm vm1 := by
  obtain ⟨ctx, vm2, hce, hr, rfl⟩ := callOp_done_inv run fi co vm vm1 h
  obtain ⟨f, c, cc, rest, vals, name, n, code, k, q, hf, hs, hcc, hd, hc, hq, hk, hvl, hvv, rfl⟩ :=
    callEnter_done_inv fi co vm ctx hce
  have hfi : fi < vm.frames.length := (List.getElem?_eq_some_iff.mp hf).1
  have hA := afterCallOperand_stable vm fi co f c rest q hc
  have hst := hrun _ _ hr
  simp only [Vm.pushFrame, List.length_append, List.length_singleton, Nat.add_sub_cancel] at hst
  obtain ⟨cc1, hcc1, _⟩ := hA.2.2.2 code cc hcc
  obtain ⟨cc2, hcc2, htx2⟩ := hst.2.2.2 code cc1 hcc1
  have hlen2 : vm2.frames.length = (afterCallOperand vm fi co f c rest q).frames.length + 1 := by
    simpa using hst.1
  have hfs2 : ∀ j, j < (afterCallOperand vm fi co f c rest q).frames.length →
      vm2.frames[j]? = (afterCallOperand vm fi co f c rest q).frames[j]? := by
    intro j hj
    rw [hst.2.1 j hj, List.getElem?_append_left hj]
  rw [callExit_eq fi _ code vm2 _ cc2 hlen2 hfs2 hcc2]
  have hfr : ∀ g : List (Frame ν),
      (g = (afterCallOperand vm fi co f c rest q).frames
        ∨ ∃ f1, g = (afterCallOperand vm fi co f c rest q).frames.set fi f1) →
      (g.length = vm.frames.length ∧ ∀ j, j < fi → g[j]? = vm.frames[j]?) := by
    intro g hg
    rcases hg with rfl | ⟨f1, rfl⟩
    · exact ⟨hA.1, hA.2.1⟩
    · refine ⟨by simpa using hA.1, fun j hj => ?_⟩
      rw [List.getElem?_set_ne (Nat.ne_of_gt hj)]
      exact hA.2.1 j hj
  have hg : ∀ g : List (Frame ν),
      (g.length = vm.frames.length ∧ ∀ j, j < fi → g[j]? = vm.frames[j]?) →
      Stable fi vm { frames := g, last := none,
                     heap := vm2.heap.set code { cc2 with offsets := ⟨cc.offsets.Val⟩ },
                     out := vm2.out } := by
    intro g hg
    refine ⟨hg.1, hg.2, ?_, ?_⟩
    · simp only [List.length_set]
      rw [hst.2.2.1]
      exact hA.2.2.1
    · intro p e hp
      obtain ⟨e1, he1, hx1⟩ := hA.2.2.2 p e hp
      obtain ⟨e2, he2, hx2⟩ := hst.2.2.2 p e1 he1
      simp only [List.getElem?_set]
      by_cases hpc : code = p
      · subst hpc
        have hlt : code < vm2.heap.length := (List.getElem?_eq_some_iff.mp he2).1
        have hee : e2 = cc2 := by
          rw [hcc2] at he2
          exact (Option.some.inj he2).symm
        have hx3 : Code.SameText e cc2 := hee ▸ sameText_trans hx1 hx2
        exact ⟨{ cc2 with offsets := ⟨cc.offsets.Val⟩ }, by simp [hlt],
          sameText_trans hx3 ⟨rfl, rfl, rfl⟩⟩
      · exact ⟨e2, by simp [hpc, he2], sameText_trans hx1 hx2⟩
  apply hg
  apply hfr
  cases vm2.last with
  | none => exact Or.inl rfl
  | some r =>
    cases (afterCallOperand vm fi co f c rest q).frames[fi]? with
    | none => exact Or.inl rfl
    | some f1 => exact Or.inr ⟨_, rfl⟩

section
variable [Add ν] [Sub ν] [Mul ν] [Div ν] [One ν]

/-- The loop of `eval` on the frame at `fi`, when it returns `nil`, has kept the
number of frames, the frames below `fi`, and the bytes, constants and names of
every code object. -/
theorem evalLoop_stable (fuel fi co ip : Nat) (vm vm1 : Vm ν)
    (h : evalLoop fuel fi co ip vm = .done vm1) : Stable fi vm vm1 := by
  induction fuel generalizing fi co ip vm vm1 with
  | zero => simp [evalLoop] at h
  | succ fuel ih =>
    have hrun : ∀ vm0 vm2 : Vm ν, enter (evalLoop fuel) vm0 = .done vm2 →
        Stable (vm0.frames.length - 1) vm0 vm2 := by
      intro vm0 vm2 h0
      unfold enter at h0
      cases htf : vm0.topFrame with
      | none => simp [htf] at h0
      | some f0 =>
        simp only [htf] at h0
        exact ih _ _ _ _ _ h0
    unfold evalLoop at h
    cases hc : vm.heap[co]? with
    | none => simp [hc] at h
    | some c =>
      simp only [hc] at h
      by_cases hlt : ip < c.bytes.Val.length
      · simp only [hlt, dite_true] at h
        by_cases hb : c.bytes.Val[ip] = OpCall
        · simp only [hb, if_true] at h
          cases hr : callOp (enter (evalLoop fuel)) fi co vm with
          | done vm2 =>
            simp only [hr] at h
            exact stable_trans (callOp_stable _ fi co vm vm2 hrun hr) (ih _ _ _ _ _ h)
          | failed e s => simp [hr] at h
          | panicked e s => simp [hr] at h
          | outOfFuel => simp [hr] at h
        · simp only [hb, if_false] at h
          cases hr : execOp c.bytes.Val[ip] fi co vm with
          | done vm2 =>
            simp only [hr] at h
            exact stable_trans (execOp_stable _ fi co vm vm2 hr) (ih _ _ _ _ _ h)
          | failed e s => simp [hr] at h
          | panicked e s => simp [hr] at h
          | outOfFuel => simp [hr] at h
      · simp only [hlt, dite_false, Outcome.done.injEq] at h
        subst h
        exact stable_refl fi vm

/-- The callee's `eval`, when it returns `nil`, has kept every frame below its
own and the text of every code object. -/
theorem enter_evalLoop_stable (fuel : Nat) (vm0 vm2 : Vm ν)
    (h : enter (evalLoop fuel) vm0 = .done vm2) :
    Stable (vm0.frames.length - 1) vm0 vm2 := by
  unfold enter at h
  cases htf : vm0.topFrame with
  | none => simp [htf] at h
  | some f0 =>
    simp only [htf] at h
    exact evalLoop_stable _ _ _ _ _ _ h

end

/-! ## A successful `OpCall`, start to end -/

/-- The case `OpCall` up to the push of the new frame, on a caller that is the top frame:
with a function whose frame can be built on top of the stack, an operand index `k`
that is `0` or the declared arity, and `k` objects `vals` and names to bind, the
function and `vals` are popped, the index is dequeued and the new frame is pushed
with `vars[i]` assigned the objects in the order popped. -/
theorem callEnter_of_shape (fi co : Nat) (vm : Vm ν) (f : Frame ν) (c cc : Code ν)
    (rest vals : List (Object ν)) (name : String) (n : Int) (code : Nat) (k : Int)
    (q : List Int)
    (htop : fi + 1 = vm.frames.length)
    (hf : vm.frames[fi]? = some f)
    (hs : f.stack.Val = rest ++ vals ++ [FuncObj name n code])
    (hcc : vm.heap[code]? = some cc) (hd : dissemble cc = true)
    (hc : vm.heap[co]? = some c) (hq : c.offsets.Val = k :: q)
    (hk : k = 0 ∨ k = n) (hvl : vals.length = k.toNat)
    (hvv : vals.length ≤ cc.vars.Val.length) :
    callEnter fi co vm = .done
      { vm := (afterCallOperand vm fi co f c rest q).pushFrame
                { freshFrame code with
                  localVar := bindAll [] (cc.vars.Val.take vals.length) vals.reverse },
        t := ⟨cc.offsets.Val⟩, callee := code } := by
  have hfi : fi < vm.frames.length := by omega
  have key := callEnter_eq fi co vm f c cc (rest ++ vals) name n k code q hf hs hcc hd hc hq
  by_cases h0 : k = 0
  · have hnil : vals = [] := List.length_eq_zero.mp (by simp [hvl, h0])
    subst hnil
    rw [key, if_neg (not_not.mpr h0)]
    simp [bindAll, freshFrame]
  · have hn : k = n := hk.resolve_left h0
    have htf : (afterCallOperand vm fi co f c (rest ++ vals) q).topFrame
        = some { f with stack := ⟨rest ++ vals⟩ } := by
      rw [Vm.topFrame_eq _ fi (by simpa [afterCallOperand, Vm.setFrame, Vm.setCode] using htop)]
      simp [afterCallOperand, Vm.setFrame, Vm.setCode, hfi]
    have hget : (afterCallOperand vm fi co f c (rest ++ vals) q).frames[fi]?
        = some { f with stack := ⟨rest ++ vals⟩ } := by
      simp [afterCallOperand, Vm.setFrame, Vm.setCode, hfi]
    have hb := bindArgs_eq cc.vars fi k.toNat 0
      (afterCallOperand vm fi co f c (rest ++ vals) q) (freshFrame code)
      { f with stack := ⟨rest ++ vals⟩ } rest vals hget rfl hvl (by omega)
    rw [key, if_pos h0, if_neg (not_not.mpr hn)]
    simp only [htf, Stack.Len, List.length_append, hb]
    have hnlt : ¬ (((rest.length + vals.length : Nat) : Int) < k) := by
      have := Int.self_le_toNat k
      omega
    rw [if_neg hnlt, hvl]
    simp [afterCallOperand, Vm.setFrame, Vm.setCode, freshFrame]

section
variable [Add ν] [Sub ν] [Mul ν] [Div ν] [One ν]

/-- A `OpCall` that completes, in full: what it found (as in
`callEnter_done_inv`), the callee's run, and the machine it leaves.  The frames
are those before the call except that the function and the `k` arguments are gone
from the caller's stack and the object the callee left in `last`, if any, is on
top of it; `last` is empty; the callee's code object is what it was before the
call. -/
theorem callOp_done_eq (fuel fi co : Nat) (vm vm1 : Vm ν)
    (h : callOp (enter (evalLoop fuel)) fi co vm = .done vm1) :
    ∃ (f : Frame ν) (c cc : Code ν) (rest vals : List (Object ν)) (name : String) (n : Int)
      (code : Nat) (k : Int) (q : List Int) (ctx : CallCtx ν) (vm2 : Vm ν),
      vm.frames[fi]? = some f ∧ f.stack.Val = rest ++ vals ++ [FuncObj name n code]
        ∧ vm.heap[code]? = some cc ∧ dissemble cc = true
        ∧ vm.heap[co]? = some c ∧ c.offsets.Val = k :: q
        ∧ (k = 0 ∨ k = n) ∧ vals.length = k.toNat ∧ vals.length ≤ cc.vars.Val.length
        ∧ callEnter fi co vm = .done ctx
        ∧ ctx = { vm := (afterCallOperand vm fi co f c rest q).pushFrame
                    { freshFrame code with
                      localVar := bindAll [] (cc.vars.Val.take vals.length) vals.reverse },
                  t := ⟨cc.offsets.Val⟩, callee := code }
        ∧ enter (evalLoop fuel) ctx.vm = .done vm2
        ∧ vm1.frames = vm.frames.set fi
            { f with stack := ⟨match vm2.last with
                                | none => rest
                                | some r => rest ++ [r]⟩ }
        ∧ vm1.last = none
        ∧ vm1.out = vm2.out
        ∧ vm1.heap[code]? = some cc
        ∧ vm1.heap.length = vm.heap.length := by
  obtain ⟨ctx, vm2, hce, hr, rfl⟩ := callOp_done_inv _ fi co vm vm1 h
  obtain ⟨f, c, cc, rest, vals, name, n, code, k, q, hf, hs, hcc, hd, hc, hq, hk, hvl, hvv, hctx⟩ :=
    callEnter_done_inv fi co vm ctx hce
  refine ⟨f, c, cc, rest, vals, name, n, code, k, q, ctx, vm2, hf, hs, hcc, hd, hc, hq, hk, hvl,
    hvv, hce, hctx, hr, ?_⟩
  subst hctx
  have hfi : fi < vm.frames.length := (List.getElem?_eq_some_iff.mp hf).1
  have hA := afterCallOperand_stable vm fi co f c rest q hc
  have hst := enter_evalLoop_stable fuel _ vm2 hr
  simp only [Vm.pushFrame, List.length_append, List.length_singleton, Nat.add_sub_cancel] at hst
  obtain ⟨cc1, hcc1, hx1⟩ := hA.2.2.2 code cc hcc
  obtain ⟨cc2, hcc2, hx2⟩ := hst.2.2.2 code cc1 hcc1
  have hx : Code.SameText cc cc2 := sameText_trans hx1 hx2
  have hlen2 : vm2.frames.length = (afterCallOperand vm fi co f c rest q).frames.length + 1 := by
    simpa using hst.1
  have hfs2 : ∀ j, j < (afterCallOperand vm fi co f c rest q).frames.length →
      vm2.frames[j]? = (afterCallOperand vm fi co f c rest q).frames[j]? := by
    intro j hj
    rw [hst.2.1 j hj, List.getElem?_append_left hj]
  have hAfi : (afterCallOperand vm fi co f c rest q).frames[fi]?
      = some { f with stack := ⟨rest⟩ } := by
    simp [afterCallOperand, Vm.setFrame, Vm.setCode, hfi]
  have hlt2 : code < vm2.heap.length := (List.getElem?_eq_some_iff.mp hcc2).1
  have hcceq : ({ cc2 with offsets := ⟨cc.offsets.Val⟩ } : Code ν) = cc := by
    obtain ⟨hb, hcn, hv⟩ := hx
    cases cc with
    | mk bytes cons vars offsets =>
      cases cc2 with
      | mk bytes2 cons2 vars2 offsets2 =>
        simp only at hb hcn hv
        simp [hb, hcn, hv]
  rw [callExit_eq fi _ code vm2 _ cc2 hlen2 hfs2 hcc2]
  refine ⟨?_, rfl, rfl, ?_, ?_⟩
  · simp only [hAfi]
    cases vm2.last with
    | none => simp [afterCallOperand, Vm.setFrame, Vm.setCode]
    | some r => simp [afterCallOperand, Vm.setFrame, Vm.setCode, pushStack, Stack.Push]
  · simp [hlt2, hcceq]
  · simp only [List.length_set]
    rw [hst.2.2.1]
    exact hA.2.2.1

end

/-! ## C7, C8: what a call leaves in the caller -/

/-- Every assigned name is bound afterwards. -/
theorem lookUp_bindAll_of_mem (t : Table ν) (names : List String) (objs : List (Object ν))
    (x : String) (hx : x ∈ names) (hlen : names.length ≤ objs.length) :
    ∃ v, Table.lookUp (bindAll t names objs) x = some v := by
  induction names generalizing t objs with
  | nil => simp at hx
  | cons y ys ih =>
    cases objs with
    | nil => simp at hlen
    | cons o os =>
      rw [bindAll_cons]
      by_cases hys : x ∈ ys
      · exact ih _ os hys (by simpa using hlen)
      · have hxy : x = y := by
          rcases List.mem_cons.mp hx with h | h
          · exact h
          · exact absurd h hys
        subst hxy
        rw [lookUp_bindAll_of_not_mem _ _ _ _ hys]
        exact ⟨o, Table.lookUp_store_same t x o⟩

theorem lookUp_nil (x : String) : Table.lookUp ([] : Table ν) x = none := rfl

section
variable [Add ν] [Sub ν] [Mul ν] [Div ν] [One ν]

/-- C7: for every `OpCall` that completes, the caller's frame has the symbol table
it had before the call (and every other frame is as it was); the frame the callee
started on had an empty stack and the symbol table got from the empty one by
binding the first `k` names of the callee's `vars` to the `k` arguments, `k` the
operand index of the call: a name is bound in it exactly when it is one of these
`k` names, and with `k = 0` it is empty. -/
theorem call_isolation (fuel fi co : Nat) (vm vm1 : Vm ν) (f : Frame ν)
    (hf : vm.frames[fi]? = some f)
    (hcall : callOp (enter (evalLoop fuel)) fi co vm = .done vm1) :
    (∃ f1, vm1.frames[fi]? = some f1 ∧ f1.localVar = f.localVar)
      ∧ (∀ j, j ≠ fi → vm1.frames[j]? = vm.frames[j]?)
      ∧ ∃ (ctx : CallCtx ν) (nf : Frame ν) (c cc : Code ν) (rest vals : List (Object ν))
          (name : String) (n : Int) (code : Nat) (k : Int) (q : List Int),
          f.stack.Val = rest ++ vals ++ [FuncObj name n code]
            ∧ vm.heap[co]? = some c ∧ c.offsets.Val = k :: q ∧ vals.length = k.toNat
            ∧ vm.heap[code]? = some cc
            ∧ callEnter fi co vm = .done ctx
            ∧ ctx.vm.frames = vm.frames.set fi { f with stack := ⟨rest⟩ } ++ [nf]
            ∧ nf.code = code ∧ nf.stack = ⟨[]⟩
            ∧ nf.localVar = bindAll [] (cc.vars.Val.take vals.length) vals.reverse
            ∧ (∀ x, (∃ v, Table.lookUp nf.localVar x = some v)
                  ↔ x ∈ cc.vars.Val.take vals.length)
            ∧ (k = 0 → nf.localVar = []) := by
  obtain ⟨f0, c, cc, rest, vals, name, n, code, k, q, ctx, vm2, hf0, hs, hcc, hd, hc, hq, hk, hvl,
    hvv, hce, hctx, hr, hfr, hlast, hout, hheap, hhl⟩ := callOp_done_eq fuel fi co vm vm1 hcall
  have hff : f = f0 := by
    rw [hf] at hf0
    exact Option.some.inj hf0
  subst hff
  have hfi : fi < vm.frames.length := (List.getElem?_eq_some_iff.mp hf).1
  refine ⟨⟨{ f with stack := ⟨match vm2.last with
                              | none => rest
                              | some r => rest ++ [r]⟩ },
    by rw [hfr]; exact List.getElem?_set_self hfi, rfl⟩, ?_, ?_⟩
  · intro j hj
    rw [hfr, List.getElem?_set_ne (Ne.symm hj)]
  · refine ⟨ctx, { freshFrame code with
        localVar := bindAll [] (cc.vars.Val.take vals.length) vals.reverse },
      c, cc, rest, vals, name, n, code, k, q, hs, hc, hq, hvl, hcc, hce, ?_, rfl, rfl, rfl, ?_, ?_⟩
    · rw [hctx]
      simp [afterCallOperand, Vm.setFrame, Vm.setCode, Vm.pushFrame]
    · intro x
      constructor
      · rintro ⟨v, hv⟩
        rcases lookUp_bindAll_some _ _ _ _ _ hv with h | h
        · exact h
        · simp [lookUp_nil] at h
      · intro hx
        exact lookUp_bindAll_of_mem _ _ _ x hx (by simp [List.length_take, hvv])
    · intro h0
      have hnil : vals = [] := List.length_eq_zero.mp (by simp [hvl, h0])
      subst hnil
      simp [bindAll]

/-- C7 (witness): in `isolationVm` the caller binds `x` to `3`, the callee `foo`
stores `5` to `x`; the call completes, leaving the object returned on the
caller's stack, and the caller's `x` is still `3`. -/
theorem call_isolation_witness :
    ∃ f1, (callerVm [NoneObj] [("x", NumObj 3)] [] storeFive).frames[0]? = some f1
      ∧ f1.localVar = [("x", NumObj 3)] :=
  (call_isolation 10 0 0 isolationVm (callerVm [NoneObj] [("x", NumObj 3)] [] storeFive)
    { code := 0, stack := ⟨[FuncObj "foo" 0 1]⟩, localVar := [("x", NumObj 3)], builtin := [] }
    rfl (by decide)).1

/-- What a completed call forwards: when a `OpCall` has pushed the callee's frame and
the callee's `eval` returns `nil` with the object `r` in `last`, the `OpCall`
completes; the frames are then those before the call, the caller's frame in its place (on top when it
was on top), and its stack is what was below the function and the `k` arguments
with `r` on top; `last` is empty. -/
theorem call_forwards_return (fuel fi co : Nat) (vm : Vm ν) (ctx : CallCtx ν) (vm2 : Vm ν)
    (r : Object ν)
    (hce : callEnter fi co vm = .done ctx)
    (hrun : enter (evalLoop fuel) ctx.vm = .done vm2)
    (hr : vm2.last = some r) :
    ∃ (vm1 : Vm ν) (f : Frame ν) (c : Code ν) (rest vals : List (Object ν)) (name : String)
        (n : Int) (code : Nat) (k : Int) (q : List Int),
      callOp (enter (evalLoop fuel)) fi co vm = .done vm1
        ∧ vm.frames[fi]? = some f ∧ f.stack.Val = rest ++ vals ++ [FuncObj name n code]
        ∧ vm.heap[co]? = some c ∧ c.offsets.Val = k :: q ∧ vals.length = k.toNat
        ∧ vm1.frames = vm.frames.set fi { f with stack := ⟨rest ++ [r]⟩ }
        ∧ (fi + 1 = vm.frames.length →
            vm1.topFrame = some { f with stack := ⟨rest ++ [r]⟩ })
        ∧ vm1.last = none := by
  have hcall : callOp (enter (evalLoop fuel)) fi co vm
      = .done (callExit fi ctx.t ctx.callee vm2) := by
    simp [callOp, hce, hrun]
  obtain ⟨f, c, cc, rest, vals, name, n, code, k, q, ctx1, vm3, hf, hs, hcc, hd, hc, hq, hk, hvl,
    hvv, hce1, hctx, hr1, hfr, hlast, hout, hheap, hhl⟩ := callOp_done_eq fuel fi co vm _ hcall
  have hcx : ctx1 = ctx := by
    rw [hce] at hce1
    simpa using hce1.symm
  subst hcx
  have hv : vm3 = vm2 := by
    rw [hrun] at hr1
    simpa using hr1.symm
  subst hv
  have hfr1 : (callExit fi ctx1.t ctx1.callee vm3).frames
      = vm.frames.set fi { f with stack := ⟨rest ++ [r]⟩ } := by
    rw [hfr, hr]
  refine ⟨_, f, c, rest, vals, name, n, code, k, q, hcall, hf, hs, hc, hq, hvl, hfr1, ?_, hlast⟩
  intro htop
  rw [Vm.topFrame_eq _ fi (by rw [hfr1, List.length_set]; exact htop), hfr1]
  exact List.getElem?_set_self (by omega)

/-- The call of `TestFunctionReturn`: `plus` called on the number `5` returns
`6`. -/
theorem call_forwards_return_witness :
    ∃ (vm1 : Vm Int) (f : Frame Int) (c : Code Int) (rest vals : List (Object Int))
        (name : String) (n : Int) (code : Nat) (k : Int) (q : List Int),
      callOp (enter (evalLoop 10)) 0 0 plusVm = .done vm1
        ∧ plusVm.frames[0]? = some f ∧ f.stack.Val = rest ++ vals ++ [FuncObj name n code]
        ∧ plusVm.heap[0]? = some c ∧ c.offsets.Val = k :: q ∧ vals.length = k.toNat
        ∧ vm1.frames = plusVm.frames.set 0 { f with stack := ⟨rest ++ [NumObj 6]⟩ }
        ∧ (0 + 1 = plusVm.frames.length →
            vm1.topFrame = some { f with stack := ⟨rest ++ [NumObj 6]⟩ })
        ∧ vm1.last = none :=
  call_forwards_return 10 0 0 plusVm
    { vm := (callerVm [] [] [] (plusOne [0, 0])).pushFrame
              { freshFrame 1 with localVar := [("num", NumObj 5)] },
      t := ⟨[0, 0]⟩, callee := 1 }
    { frames := [{ code := 0, stack := ⟨[]⟩, localVar := [], builtin := [] },
                 { code := 1, stack := ⟨[]⟩, localVar := [("num", NumObj 5)], builtin := [] }],
      last := some (NumObj 6),
      heap := [NewCode ⟨[OpCall]⟩ ⟨[]⟩ ⟨[]⟩ ⟨[]⟩, plusOne [0]],
      out := [NumObj 5, NumObj 6] }
    (NumObj 6) (by decide) (by decide) rfl

end

/-! ## C4: calling a function again -/

theorem writeBack_heap_get (fi co : Nat) (vm : Vm ν) (e : OpEffect ν)
    (h : co < vm.heap.length) : (writeBack fi co vm e).heap[co]? = some e.c := by
  simp [writeBack, h]

theorem writeBack_frames_get (fi co : Nat) (vm : Vm ν) (e : OpEffect ν)
    (h : fi < vm.frames.length) : (writeBack fi co vm e).frames[fi]? = some e.f := by
  simp [writeBack, h]

theorem Vm.topFrame_pushFrame (vm : Vm ν) (n : Frame ν) :
    (vm.pushFrame n).topFrame = some n := by
  simp [Vm.topFrame, Vm.pushFrame]

section
variable [Add ν] [Sub ν] [Mul ν] [Div ν] [One ν]

/-- A run of a code unit without `OpCall` depends on the frame and the code object
only: started in two machines on the same frame and the same code object, it
returns `nil` in the second when it does in the first. -/
theorem evalLoop_leaf_sim (fuel fiA fiB g ip : Nat) (vmA vmB vmA1 : Vm ν) (c : Code ν)
    (hcA : vmA.heap[g]? = some c) (hcB : vmB.heap[g]? = some c)
    (hleaf : OpCall ∉ c.bytes.Val)
    (hfr : vmA.frames[fiA]? = vmB.frames[fiB]?)
    (h : evalLoop fuel fiA g ip vmA = .done vmA1) :
    ∃ vmB1, evalLoop fuel fiB g ip vmB = .done vmB1 := by
  induction fuel generalizing ip vmA vmB c with
  | zero => simp [evalLoop] at h
  | succ fuel ih =>
    unfold evalLoop at h ⊢
    simp only [hcA] at h
    simp only [hcB]
    by_cases hlt : ip < c.bytes.Val.length
    · simp only [hlt, dite_true] at h ⊢
      have hb : c.bytes.Val[ip] ≠ OpCall := fun he => hleaf (he ▸ List.getElem_mem hlt)
      simp only [hb, if_false] at h ⊢
      cases hfA : vmA.frames[fiA]? with
      | none => simp [execOp, hcA, hfA] at h
      | some f =>
        have hfB : vmB.frames[fiB]? = some f := by rw [← hfr, hfA]
        rw [execOp_eq_lift _ fiA g vmA c f hcA hfA] at h
        rw [execOp_eq_lift _ fiB g vmB c f hcB hfB]
        cases hr : opLocal c.bytes.Val[ip] c f with
        | next e =>
          simp only [hr, liftResult] at h ⊢
          have hx := opLocal_sameText _ c f e hr
          refine ih (ip + 1) (writeBack fiA g vmA e) (writeBack fiB g vmB e) e.c
            (writeBack_heap_get _ _ _ _ (List.getElem?_eq_some_iff.mp hcA).1)
            (writeBack_heap_get _ _ _ _ (List.getElem?_eq_some_iff.mp hcB).1)
            (by rw [hx.1]; exact hleaf) ?_ h
          rw [writeBack_frames_get _ _ _ _ (List.getElem?_eq_some_iff.mp hfA).1,
            writeBack_frames_get _ _ _ _ (List.getElem?_eq_some_iff.mp hfB).1]
        | failed err e => simp [hr, liftResult] at h
        | panicked e => simp [hr, liftResult] at h
    · exact ⟨vmB, by simp [hlt]⟩

/-- The callee's queue after a call: for every `OpCall` that completes, the callee's
code object, its operand-index queue included, is after the call what it was
before the call.  So,
when the callee's code unit is not the caller's and has no `OpCall`, any later
`OpCall` by a top frame on the same function value, with the same operand index
and the same arguments, in a machine where the callee's code object is still as
the first call left it, starts the callee on the same code object and the same
fresh frame as the first call did, and completes. -/
theorem call_restores_queue (fuel fi co : Nat) (vm vm1 : Vm ν)
    (hcall : callOp (enter (evalLoop fuel)) fi co vm = .done vm1) :
    ∃ (f : Frame ν) (c cc : Code ν) (rest vals : List (Object ν)) (name : String) (n : Int)
      (code : Nat) (k : Int) (q : List Int) (ctx : CallCtx ν),
      vm.frames[fi]? = some f ∧ f.stack.Val = rest ++ vals ++ [FuncObj name n code]
        ∧ vm.heap[co]? = some c ∧ c.offsets.Val = k :: q ∧ vals.length = k.toNat
        ∧ callEnter fi co vm = .done ctx
        ∧ vm.heap[code]? = some cc
        ∧ vm1.heap[code]? = some cc
        ∧ (co ≠ code → OpCall ∉ cc.bytes.Val →
            ∀ (fi2 co2 : Nat) (vmS : Vm ν) (f2 : Frame ν) (c2 : Code ν)
              (rest2 : List (Object ν)) (q2 : List Int),
              fi2 + 1 = vmS.frames.length → vmS.frames[fi2]? = some f2 →
              f2.stack.Val = rest2 ++ vals ++ [FuncObj name n code] →
              vmS.heap[co2]? = some c2 → c2.offsets.Val = k :: q2 → co2 ≠ code →
              vmS.heap[code]? = vm1.heap[code]? →
              ∃ (ctx2 : CallCtx ν) (vm3 : Vm ν),
                callEnter fi2 co2 vmS = .done ctx2
                  ∧ ctx2.vm.heap[code]? = ctx.vm.heap[code]?
                  ∧ ctx2.vm.topFrame = ctx.vm.topFrame
                  ∧ callOp (enter (evalLoop fuel)) fi2 co2 vmS = .done vm3) := by
  obtain ⟨f, c, cc, rest, vals, name, n, code, k, q, ctx, vm2, hf, hs, hcc, hd, hc, hq, hk, hvl,
    hvv, hce, hctx, hr, hfr, hlast, hout, hheap, hhl⟩ := callOp_done_eq fuel fi co vm vm1 hcall
  refine ⟨f, c, cc, rest, vals, name, n, code, k, q, ctx, hf, hs, hc, hq, hvl, hce, hcc, hheap, ?_⟩
  intro hne hleaf fi2 co2 vmS f2 c2 rest2 q2 htop2 hf2 hs2 hc2 hq2 hne2 hsame
  have hccS : vmS.heap[code]? = some cc := by rw [hsame, hheap]
  have hce2 := callEnter_of_shape fi2 co2 vmS f2 c2 cc rest2 vals name n code k q2 htop2 hf2 hs2
    hccS hd hc2 hq2 hk hvl hvv
  have hh1 : ctx.vm.heap[code]? = some cc := by
    rw [hctx]
    simp [afterCallOperand, Vm.setFrame, Vm.setCode, Vm.pushFrame, List.getElem?_set_ne hne, hcc]
  have hh2 : ((afterCallOperand vmS fi2 co2 f2 c2 rest2 q2).pushFrame
      { freshFrame code with
        localVar := bindAll [] (cc.vars.Val.take vals.length) vals.reverse }).heap[code]?
      = some cc := by
    simp [afterCallOperand, Vm.setFrame, Vm.setCode, Vm.pushFrame, List.getElem?_set_ne hne2,
      hccS]
  have ht1 : ctx.vm.topFrame = some { freshFrame code with
      localVar := bindAll [] (cc.vars.Val.take vals.length) vals.reverse } := by
    rw [hctx]
    exact Vm.topFrame_pushFrame _ _
  have hrun1 := hr
  unfold enter at hrun1
  rw [ht1] at hrun1
  simp only at hrun1
  have hfrA : ctx.vm.frames[ctx.vm.frames.length - 1]? = some { freshFrame code with
      localVar := bindAll [] (cc.vars.Val.take vals.length) vals.reverse } := ht1
  have hfrB : ((afterCallOperand vmS fi2 co2 f2 c2 rest2 q2).pushFrame
      { freshFrame code with
        localVar := bindAll [] (cc.vars.Val.take vals.length) vals.reverse }).frames[
        ((afterCallOperand vmS fi2 co2 f2 c2 rest2 q2).pushFrame
          { freshFrame code with
            localVar := bindAll [] (cc.vars.Val.take vals.length) vals.reverse }).frames.length
          - 1]?
      = some { freshFrame code with
          localVar := bindAll [] (cc.vars.Val.take vals.length) vals.reverse } :=
    Vm.topFrame_pushFrame _ _
  obtain ⟨vmB1, hB⟩ := evalLoop_leaf_sim fuel _ _ code 0 ctx.vm _ vm2 cc hh1 hh2 hleaf
    (hfrA.trans hfrB.symm) hrun1
  have hrun2 : enter (evalLoop fuel)
      ((afterCallOperand vmS fi2 co2 f2 c2 rest2 q2).pushFrame
        { freshFrame code with
          localVar := bindAll [] (cc.vars.Val.take vals.length) vals.reverse })
      = .done vmB1 := by
    unfold enter
    rw [Vm.topFrame_pushFrame]
    exact hB
  refine ⟨_, callExit fi2 ⟨cc.offsets.Val⟩ code vmB1, hce2, ?_, ?_, ?_⟩
  · rw [hh1]; exact hh2
  · rw [ht1]; exact Vm.topFrame_pushFrame _ _
  · simp only [callOp, hce2, hrun2]

/-- Two calls in sequence: in `reuseVm [] [0]` the function `foo` is called with nothing
supplied and the call completes; `foo` is loaded again on top of the object
returned, and the second call, whose caller has the shorter queue `0`, completes
too. -/
theorem call_restores_queue_witness :
    ∃ vm3 : Vm Int, callOp (enter (evalLoop 10)) 0 0 (reuseVm [NoneObj] []) = .done vm3 := by
  obtain ⟨f, c, cc, rest, vals, name, n, code, k, q, ctx, hf, hs, hc, hq, hvl, hce, hcc, hheap,
    hsecond⟩ := call_restores_queue 10 0 0 (reuseVm [] [0]) (callerVm [NoneObj] [] [0] storeFive)
      (by decide)
  have hf1 : f = { code := 0, stack := ⟨[FuncObj "foo" 0 1]⟩, localVar := [], builtin := [] } := by
    simpa [reuseVm, callerVm] using hf.symm
  subst hf1
  have hsp := List.append_inj' (show ([] : List (Object Int)) ++ [FuncObj "foo" 0 1]
      = (rest ++ vals) ++ [FuncObj name n code] from hs) rfl
  have hfn : name = "foo" ∧ n = 0 ∧ code = 1 := by
    have := hsp.2
    simp only [List.cons.injEq, FuncObj.injEq, and_true] at this
    exact ⟨this.1.symm, this.2.1.symm, this.2.2.symm⟩
  obtain ⟨rfl, rfl, rfl⟩ := hfn
  have hv : vals = [] := (List.append_eq_nil.mp hsp.1.symm).2
  subst hv
  have hc1 : c = NewCode ⟨[OpCall]⟩ ⟨[]⟩ ⟨[]⟩ ⟨[0, 0]⟩ := by
    simpa [reuseVm, callerVm] using hc.symm
  subst hc1
  have hk : k = 0 := by
    simp [NewCode] at hq
    exact hq.1.symm
  subst hk
  have hcc1 : cc = storeFive := by
    simpa [reuseVm, callerVm] using hcc.symm
  subst hcc1
  obtain ⟨ctx2, vm3, _, _, _, h3⟩ := hsecond (by decide) (by decide) 0 0
    (reuseVm [NoneObj] [])
    { code := 0, stack := ⟨[NoneObj, FuncObj "foo" 0 1]⟩, localVar := [], builtin := [] }
    (NewCode ⟨[OpCall]⟩ ⟨[]⟩ ⟨[]⟩ ⟨[0]⟩) [NoneObj] [] rfl rfl rfl rfl rfl (by decide) rfl
  exact ⟨vm3, h3⟩

end

/-- C4 (the code at the failing input): `callTwice` run on a fresh frame.  After `LoadConst 1,
Return, LoadConst g` the first `Call` of `g` completes; `g` is loaded again and the
second `Call` finds the code object of `g` as the first did, but it panics: inside
`g` the call of `h` pushed the object left in `last` by the `Return` the first
time and pushes nothing the second time, so `Discard` pops an empty stack. -/
theorem second_call_fails_counterexample :
    ∃ s1 s2 s3 s4 s5 s6 : Vm Int,
      execOp OpConst 0 0 (initVm [callTwice, callAndDiscard, emptyCode]) = .done s1
        ∧ execOp OpRet 0 0 s1 = .done s2
        ∧ execOp OpConst 0 0 s2 = .done s3
        ∧ s3.topFrame = some { code := 0, stack := ⟨[FuncObj "g" 0 1]⟩, localVar := [],
                               builtin := [] }
        ∧ callOp (enter (evalLoop 20)) 0 0 s3 = .done s4
        ∧ execOp OpConst 0 0 s4 = .done s5
        ∧ s5.topFrame = s3.topFrame
        ∧ s5.heap[1]? = s3.heap[1]?
        ∧ callOp (enter (evalLoop 20)) 0 0 s5 = .panicked none s6
        ∧ eval 20 (initVm [callTwice, callAndDiscard, emptyCode]) = .panicked none s6 := by
  refine ⟨_, _, _, _, _, _, rfl, rfl, rfl, ?_, rfl, rfl, ?_, ?_, rfl, ?_⟩ <;> decide

/-! ## C11: popping an empty stack or an empty queue -/

/-- The case `OpCall` on an empty operand-index queue panics, whatever is on the
stack: either before the queue is read, or at `popOffset`. -/
theorem callEnter_empty_queue (fi co : Nat) (vm : Vm ν) (c : Code ν) (f : Frame ν)
    (hc : vm.heap[co]? = some c) (hf : vm.frames[fi]? = some f)
    (hq : c.offsets.Val = []) :
    ∃ s, callEnter fi co vm = .panicked none s := by
  unfold callEnter
  simp only [hf]
  cases hp : popStack f with
  | none => exact ⟨_, rfl⟩
  | some p =>
    obtain ⟨o, f1⟩ := p
    cases o with
    | FuncObj name args code =>
      simp only [Vm.setFrame]
      cases hn : NewFrame vm.heap code with
      | none => exact ⟨_, rfl⟩
      | some n =>
        cases hcc : vm.heap[code]? with
        | none => exact ⟨_, rfl⟩
        | some cc =>
          simp only [hc, popOffset_nil c hq]
          exact ⟨_, rfl⟩
    | NumObj v => exact ⟨_, rfl⟩
    | StrObj v => exact ⟨_, rfl⟩
    | NoneObj => exact ⟨_, rfl⟩

section
variable [Add ν] [Sub ν] [Mul ν] [Div ν] [One ν]

/-- C11 (amended): when the loop of `eval` is at a byte that pops the evaluation
stack (`OpStore`, the four arithmetic bytes, `OpAddO`, `OpSubO`, `OpPop`,
`OpCall`, `OpRet`) and the stack is empty, `eval` panics at once, the machine
unchanged; when it is at an operand-bearing byte and the operand-index queue is
empty it panics too: `OpLoad` and `OpConst` with the machine unchanged, `OpStore`
after the object on top was popped, `OpCall` in some state.  The panic is Go's
run-time panic of the assertion on `nil`; in no case does `eval` return an
error or go on to the next byte. -/
theorem underflow_panics (fuel fi co ip b : Nat) (vm : Vm ν) (c : Code ν) (f : Frame ν)
    (hc : vm.heap[co]? = some c) (hb : c.bytes.Val[ip]? = some b)
    (hf : vm.frames[fi]? = some f) :
    (f.stack.Val = [] →
        b = OpStore ∨ b = OpAdd ∨ b = OpSub ∨ b = OpMul ∨ b = OpDiv ∨ b = OpAddO ∨ b = OpSubO
          ∨ b = OpPop ∨ b = OpCall ∨ b = OpRet →
        evalLoop (fuel + 1) fi co ip vm = .panicked none vm)
    ∧ (c.offsets.Val = [] →
        (b = OpLoad ∨ b = OpConst → evalLoop (fuel + 1) fi co ip vm = .panicked none vm)
        ∧ (b = OpStore → ∀ (rest : List (Object ν)) (x : Object ν), f.stack.Val = rest ++ [x] →
            evalLoop (fuel + 1) fi co ip vm
              = .panicked none (vm.setFrame fi { f with stack := ⟨rest⟩ }))
        ∧ (b = OpCall → ∃ s, evalLoop (fuel + 1) fi co ip vm = .panicked none s)) := by
  refine ⟨fun hs hop => ?_, fun hq => ⟨fun hop => ?_, fun hop rest x hs => ?_, fun hop => ?_⟩⟩
  · by_cases hcall : b = OpCall
    · subst hcall
      rw [evalLoop_succ_call fuel fi co ip vm c hc hb]
      simp [callOp, callEnter, hf, popStack_nil f hs]
    · rw [evalLoop_succ_op fuel fi co ip vm c b hc hb hcall]
      rcases hop with h | h | h | h | h | h | h | h | h | h <;> subst h <;>
        first
          | exact absurd rfl hcall
          | simp [execOp, hc, hf, popStack_nil f hs]
  · have hcall : b ≠ OpCall := by rcases hop with h | h <;> subst h <;> decide
    rw [evalLoop_succ_op fuel fi co ip vm c b hc hb hcall]
    rcases hop with h | h <;> subst h <;> simp [execOp, hc, hf, popOffset_nil c hq]
  · subst hop
    rw [evalLoop_succ_op fuel fi co ip vm c OpStore hc hb (by decide)]
    simp [execOp, hc, hf, popStack_snoc f rest x hs, popOffset_nil c hq]
  · subst hop
    rw [evalLoop_succ_call fuel fi co ip vm c hc hb]
    obtain ⟨s, hs⟩ := callEnter_empty_queue fi co vm c f hc hf hq
    exact ⟨s, by simp [callOp, hs]⟩

end

/-- C11 (witness): `Discard` on an empty stack. -/
theorem underflow_panics_witness :
    evalLoop 1 0 0 0 (opVm OpPop ([] : List (Object Int))) = .panicked none (opVm OpPop []) :=
  (underflow_panics 0 0 0 0 OpPop (opVm OpPop ([] : List (Object Int)))
    (NewCode ⟨[OpPop]⟩ ⟨[]⟩ ⟨[]⟩ ⟨[]⟩)
    { code := 0, stack := ⟨[]⟩, localVar := [], builtin := [] } rfl rfl rfl).1 rfl (by decide)

/-- C11 (counterexample): `eval` on the code unit `Discard` with an empty stack
panics; it returns no error, whatever its kind and state. -/
theorem underflow_not_returned_counterexample :
    eval 2 (opVm OpPop ([] : List (Object Int))) = .panicked none (opVm OpPop [])
      ∧ ∀ (e : EvalError Int) (s : Vm Int), eval 2 (opVm OpPop []) ≠ .failed e s := by
  have h : eval 2 (opVm OpPop ([] : List (Object Int))) = .panicked none (opVm OpPop []) := by
    decide
  exact ⟨h, fun e s h2 => by rw [h] at h2; cases h2⟩

/-! ## C12: an error of the callee -/

section
variable [Add ν] [Sub ν] [Mul ν] [Div ν] [One ν]

/-- C12 (amended): when the loop of `eval` is at a `OpCall` that has pushed the
callee's frame, and the nested `eval` on that frame returns the error `e` in the
state `s`, the calling `eval` does not return `e`: it panics with `e`
(`panic(err)`), in the very state `s`, so no byte of the caller after the
`OpCall` is run; and when the nested `eval` panics, with an error of a deeper
call or with a run-time panic, the calling `eval` panics likewise in the same
state.  So an error of kind K raised at any depth below the top-level frame
reaches the caller of the top-level `eval` as a panic carrying that error, not as
a returned error. -/
theorem callee_failure_panics (fuel fi co ip : Nat) (vm : Vm ν) (c : Code ν) (ctx : CallCtx ν)
    (hc : vm.heap[co]? = some c) (hb : c.bytes.Val[ip]? = some OpCall)
    (hce : callEnter fi co vm = .done ctx) :
    (∀ (e : EvalError ν) (s : Vm ν), eval fuel ctx.vm = .failed e s →
        evalLoop (fuel + 1) fi co ip vm = .panicked (some e) s)
      ∧ (∀ (e : Option (EvalError ν)) (s : Vm ν), eval fuel ctx.vm = .panicked e s →
        evalLoop (fuel + 1) fi co ip vm = .panicked e s) := by
  constructor
  · intro e s h
    rw [evalLoop_succ_call fuel fi co ip vm c hc hb]
    unfold eval at h
    simp [callOp, hce, h]
  · intro e s h
    rw [evalLoop_succ_call fuel fi co ip vm c hc hb]
    unfold eval at h
    simp [callOp, hce, h]

end

/-- C12 (witness): a caller at `Call` on the function of `LoadVar x`. -/
theorem callee_failure_panics_witness :
    evalLoop 3 0 0 0 (callerVm [FuncObj "f" 0 1] [] [0] loadUnbound)
      = .panicked (some (.symbolNotFound "x")) (unboundFailed [OpCall] [] []) :=
  (callee_failure_panics 2 0 0 0 (callerVm [FuncObj "f" 0 1] [] [0] loadUnbound)
    (NewCode ⟨[OpCall]⟩ ⟨[]⟩ ⟨[]⟩ ⟨[0]⟩)
    { vm := { frames := [freshFrame 0, freshFrame 1], last := none,
              heap := [NewCode ⟨[OpCall]⟩ ⟨[]⟩ ⟨[]⟩ ⟨[]⟩, loadUnbound], out := [] },
      t := ⟨[0]⟩, callee := 1 }
    rfl rfl (by decide)).1 (.symbolNotFound "x") (unboundFailed [OpCall] [] []) (by decide)

/-- C12 (counterexample): `LoadConst f, Call, LoadConst 1, Output`, where `f` runs
`LoadVar x` with `x` unbound.  The top-level `eval` panics with the
`symbol not found` error, the callee's frame still on top and nothing printed;
it returns no error.  The same `LoadVar x` in the top-level frame makes `eval`
return the error. -/
theorem callee_error_not_returned_counterexample :
    eval 5 (initVm [callUnbound, loadUnbound])
        = .panicked (some (.symbolNotFound "x"))
            (unboundFailed [OpConst, OpCall, OpConst, OpPut] [FuncObj "f" 0 1, NumObj 1] [1])
      ∧ (∀ (e : EvalError Int) (s : Vm Int),
          eval 5 (initVm [callUnbound, loadUnbound]) ≠ .failed e s)
      ∧ eval 2 (initVm [loadUnbound])
        = .failed (.symbolNotFound "x")
            { frames := [freshFrame 0], last := none,
              heap := [NewCode ⟨[OpLoad]⟩ ⟨[]⟩ ⟨["x"]⟩ ⟨[]⟩], out := [] } := by
  have h : eval 5 (initVm [callUnbound, loadUnbound])
        = .panicked (some (.symbolNotFound "x"))
            (unboundFailed [OpConst, OpCall, OpConst, OpPut] [FuncObj "f" 0 1, NumObj 1] [1]) := by
    decide
  exact ⟨h, (fun e s h2 => by rw [h] at h2; cases h2), by decide⟩

/-! ## C13: `OpLoad` -/

section
variable [Add ν] [Sub ν] [Mul ν] [Div ν] [One ν]

/-- C13: when the loop of `eval` is at `OpLoad`, the index `i` is at the front of
the operand-index queue and `nam` is the name `vars[i]`, the byte returns the
`symbol not found` error exactly when `nam` has no binding in the symbol table of
the frame; then `eval` returns this error for `nam`, the index dequeued.
Otherwise the byte pushes the object bound to `nam`, and the loop goes on with
it on top of the stack, the symbol table and the rest of the frame as they were,
the index dequeued. -/
theorem loadVar_symbol_not_found_iff (fuel fi co ip : Nat) (vm : Vm ν) (c : Code ν)
    (f : Frame ν) (i : Int) (q : List Int) (nam : String)
    (hc : vm.heap[co]? = some c) (hb : c.bytes.Val[ip]? = some OpLoad)
    (hf : vm.frames[fi]? = some f) (hq : c.offsets.Val = i :: q)
    (hn : c.vars.index i = some nam) :
    ((∃ s, execOp OpLoad fi co vm = .failed (.symbolNotFound nam) s)
        ↔ f.localVar.lookUp nam = none)
      ∧ ((∃ e s, execOp OpLoad fi co vm = .failed e s) ↔ f.localVar.lookUp nam = none)
      ∧ (f.localVar.lookUp nam = none →
          evalLoop (fuel + 1) fi co ip vm
            = .failed (.symbolNotFound nam) (vm.setCode co { c with offsets := ⟨q⟩ }))
      ∧ (∀ val, f.localVar.lookUp nam = some val →
          execOp OpLoad fi co vm
              = .done ((vm.setCode co { c with offsets := ⟨q⟩ }).setFrame fi
                  { f with stack := ⟨f.stack.Val ++ [val]⟩ })
            ∧ evalLoop (fuel + 1) fi co ip vm
              = evalLoop fuel fi co (ip + 1)
                  ((vm.setCode co { c with offsets := ⟨q⟩ }).setFrame fi
                    { f with stack := ⟨f.stack.Val ++ [val]⟩ })) := by
  have hop : execOp OpLoad fi co vm =
      match f.localVar.lookUp nam with
      | none => .failed (.symbolNotFound nam) (vm.setCode co { c with offsets := ⟨q⟩ })
      | some val => .done ((vm.setCode co { c with offsets := ⟨q⟩ }).setFrame fi
                  { f with stack := ⟨f.stack.Val ++ [val]⟩ }) := by
    simp only [execOp, hc, hf, if_true, popOffset_cons c i q hq, hn]
    cases f.localVar.lookUp nam <;> simp [pushStack, Stack.Push]
  have hstep := evalLoop_succ_op fuel fi co ip vm c OpLoad hc hb (by decide)
  cases hl : f.localVar.lookUp nam with
  | none =>
    rw [hl] at hop
    refine ⟨⟨fun _ => rfl, fun _ => ⟨_, hop⟩⟩, ⟨fun _ => rfl, fun _ => ⟨_, _, hop⟩⟩, fun _ => ?_,
      fun val hv => by cases hv⟩
    rw [hstep, hop]
  | some v =>
    rw [hl] at hop
    refine ⟨⟨fun ⟨s, hs⟩ => ?_, fun h => by cases h⟩, ⟨fun ⟨e, s, hs⟩ => ?_, fun h => by cases h⟩,
      (fun h => by cases h), fun val hv => ?_⟩
    · rw [hop] at hs; cases hs
    · rw [hop] at hs; cases hs
    · cases hv
      exact ⟨hop, by rw [hstep, hop]⟩

end

/-- C13 (witness): `LoadVar x` with `x` bound to `3` pushes `3`; the symbol table
is as it was. -/
theorem loadVar_symbol_not_found_iff_witness :
    execOp OpLoad 0 0 (loadVm [("x", NumObj 3)])
      = .done { frames := [{ code := 0, stack := ⟨[NumObj 3]⟩, localVar := [("x", NumObj 3)],
                             builtin := [] }],
                last := none,
                heap := [NewCode ⟨[OpLoad]⟩ ⟨[]⟩ ⟨["x"]⟩ ⟨[]⟩],
                out := [] } :=
  ((loadVar_symbol_not_found_iff 0 0 0 0 (loadVm [("x", NumObj 3)]) loadUnbound
    { code := 0, stack := ⟨[]⟩, localVar := [("x", NumObj 3)], builtin := [] } 0 [] "x"
    rfl rfl rfl rfl rfl).2.2.2 (NumObj 3) rfl).1

/-! ## C14: `OpStore` and the program of `TestStore` -/

section
variable [Add ν] [Sub ν] [Mul ν] [Div ν] [One ν]

/-- C14: for all numbers `a` and `b`, `eval` on the program of `TestStore`,
started on a fresh frame, returns `nil` and leaves the symbol table with exactly
`x = a`, `y = b`, `z = a + b`, the stack empty and `None` in `last`.  The byte
`Add` computes `b + a`, the object popped first on the left; the hypothesis
`b + a = a + b`, which `float64` addition satisfies, turns it into `a + b`.
Moreover a `OpStore` that pops `val` and dequeues the index of the name `nam`
leaves a symbol table in which `nam` is bound to `val`, whatever it was bound to
before, and every other name is bound as before. -/
theorem store_load_round_trip (a b : ν) (fuel : Nat) (hcomm : b + a = a + b) :
    eval (fuel + 11) (initVm [testStore a b]) = .done (testStoreFinal a b (a + b))
      ∧ ∀ (fi co : Nat) (vm : Vm ν) (c : Code ν) (f : Frame ν) (i : Int) (q : List Int)
          (nam : String) (rest : List (Object ν)) (val : Object ν),
          vm.heap[co]? = some c → vm.frames[fi]? = some f → f.stack.Val = rest ++ [val] →
          c.offsets.Val = i :: q → c.vars.index i = some nam →
          execOp OpStore fi co vm
              = .done ((vm.setCode co { c with offsets := ⟨q⟩ }).setFrame fi
                  { f with stack := ⟨rest⟩, localVar := f.localVar.store nam val })
            ∧ (f.localVar.store nam val).lookUp nam = some val
            ∧ ∀ other, other ≠ nam →
                (f.localVar.store nam val).lookUp other = f.localVar.lookUp other := by
  constructor
  · rw [← hcomm]
    simp [eval, enter, evalLoop, execOp, initVm, testStore, testStoreFinal, freshFrame, NewCode,
      Vm.topFrame, popOffset, popStack, pushStack, Stack.Pop, Stack.Push, Stack.Len,
      Stack.index, Vm.setCode, Vm.setFrame, FourOperations, Object.typeOf, Object.Value,
      assertFloat64, Table.lookUp, Table.store]
  · intro fi co vm c f i q nam rest val hc hf hs hq hn
    refine ⟨?_, Table.lookUp_store_same _ _ _, fun other ho => Table.lookUp_store_other _ _ _ _ ho⟩
    simp [execOp, hc, hf, popStack_snoc f rest val hs, popOffset_cons c i q hq, hn]

end

/-- C14 (witness): with `a = 3` and `b = 4` the program of `TestStore` leaves `z`
bound to the number `7`. -/
theorem store_load_round_trip_witness :
    eval 11 (initVm [testStore (3 : Int) 4]) = .done (testStoreFinal 3 4 7) :=
  (store_load_round_trip (3 : Int) 4 0 (by decide)).1

/-! ## C15: `OpPut` and the program of `TestFourOperations` -/

section
variable [Add ν] [Sub ν] [Mul ν] [Div ν] [One ν]

/-- C15: `eval` on the program of `TestFourOperations`, started on a fresh frame,
returns `nil`; what `OpPut` printed is exactly the sum and then the product, and
`last` holds `None`.  The constants are numbers `n34`, `n66`, `n8` with
`n66 + n34 = n100` and `n8 * n100 = n800`, as `float64` has for 34, 66, 8, 100
and 800: the printed numbers are `n100` then `n800`.  Moreover `OpPut` on a
stack with `o` on top appends `o` to what was printed and changes nothing else
in the machine, the stack included. -/
theorem arithmetic_example_outputs (n34 n66 n8 n100 n800 : ν) (fuel : Nat)
    (hadd : n66 + n34 = n100) (hmul : n8 * n100 = n800) :
    eval (fuel + 10) (initVm [fourOps n34 n66 n8]) = .done (fourOpsFinal n34 n66 n8 n100 n800)
      ∧ ∀ (fi co : Nat) (vm : Vm ν) (c : Code ν) (f : Frame ν) (rest : List (Object ν))
          (o : Object ν),
          vm.heap[co]? = some c → vm.frames[fi]? = some f → f.stack.Val = rest ++ [o] →
          execOp OpPut fi co vm = .done { vm with out := vm.out ++ [o] } := by
  constructor
  · rw [← hmul, ← hadd]
    simp [eval, enter, evalLoop, execOp, initVm, fourOps, fourOpsFinal, freshFrame, NewCode,
      Vm.topFrame, popOffset, popStack, pushStack, peekStack, Stack.Pop, Stack.Push, Stack.Len,
      Stack.index, Vm.setCode, Vm.setFrame, FourOperations, Object.typeOf, Object.Value,
      assertFloat64]
  · intro fi co vm c f rest o hc hf hs
    simp [execOp, hc, hf, peekStack, Stack.Len, hs]

end

/-- C15 (witness): with the constants 34, 66 and 8 the program prints 100 and
then 800. -/
theorem arithmetic_example_outputs_witness :
    eval 10 (initVm [fourOps (34 : Int) 66 8]) = .done (fourOpsFinal 34 66 8 100 800)
      ∧ (fourOpsFinal (34 : Int) 66 8 100 800).out = [NumObj 100, NumObj 800]
      ∧ (fourOpsFinal (34 : Int) 66 8 100 800).last = some NoneObj :=
  ⟨(arithmetic_example_outputs (34 : Int) 66 8 100 800 0 (by decide) (by decide)).1, rfl, rfl⟩

/-! ## C17: `OpDiv` on two numbers -/

/-- C17 (counterexample): on `LoadConst 1, LoadConst 0, Div` the machine divides
0 by 1, not 1 by 0; the run is on symbolic numbers, where the quotient pushed is
the expression `0 / 1`. -/
theorem div_one_zero_counterexample :
    eval 4 (initVm [binProg OpDiv (NumObj (Sym.lit 1)) (NumObj (Sym.lit 0))])
        = .done (binFinal OpDiv (NumObj (Sym.lit 1)) (NumObj (Sym.lit 0))
            [NumObj (Sym.div (Sym.lit 0) (Sym.lit 1))])
      ∧ eval 4 (initVm [binProg OpDiv (NumObj (Sym.lit 1)) (NumObj (Sym.lit 0))])
        ≠ .done (binFinal OpDiv (NumObj (Sym.lit 1)) (NumObj (Sym.lit 0))
            [NumObj (Sym.div (Sym.lit 1) (Sym.lit 0))]) := by
  decide

section
variable [Add ν] [Sub ν] [Mul ν] [Div ν] [One ν]

/-- C17 (amended): when the loop of `eval` is at `OpDiv` and the two objects it
pops are numbers, `x` first and then `y`, the byte returns no error and does not
panic, whatever `x` and `y` are, a zero `y` included: it pushes the number
`x / y` and the loop goes on.  So for all numbers `a` and `b` the code unit
`LoadConst a, LoadConst b, Div` returns `nil` with `b / a` on the stack: it is
`LoadConst 0, LoadConst 1, Div` that divides 1 by 0. -/
theorem div_on_numbers_never_fails (fuel fi co ip : Nat) (vm : Vm ν) (c : Code ν)
    (f : Frame ν) (rest : List (Object ν)) (x y : ν)
    (hc : vm.heap[co]? = some c) (hb : c.bytes.Val[ip]? = some OpDiv)
    (hf : vm.frames[fi]? = some f) (hs : f.stack.Val = rest ++ [NumObj y, NumObj x]) :
    execOp OpDiv fi co vm
        = .done (vm.setFrame fi { f with stack := ⟨rest ++ [NumObj (x / y)]⟩ })
      ∧ evalLoop (fuel + 1) fi co ip vm
        = evalLoop fuel fi co (ip + 1)
            (vm.setFrame fi { f with stack := ⟨rest ++ [NumObj (x / y)]⟩ })
      ∧ ∀ (a b : ν) (k : Nat),
          eval (k + 4) (initVm [binProg OpDiv (NumObj a) (NumObj b)])
            = .done (binFinal OpDiv (NumObj a) (NumObj b) [NumObj (b / a)]) := by
  have hop : execOp OpDiv fi co vm
      = .done (vm.setFrame fi { f with stack := ⟨rest ++ [NumObj (x / y)]⟩ }) := by
    rw [execOp_arith OpDiv fi co vm c f rest (NumObj x) (NumObj y) hc hf hs
      (Or.inr (Or.inr (Or.inr rfl)))]
    simp [FourOperations, Object.typeOf, Object.Value, assertFloat64]
  refine ⟨hop, ?_, fun a b k => ?_⟩
  · rw [evalLoop_succ_op fuel fi co ip vm c OpDiv hc hb (by decide), hop]
  · simp [eval, enter, evalLoop, execOp, initVm, binProg, binFinal, freshFrame, NewCode,
      Vm.topFrame, popOffset, popStack, pushStack, Stack.Pop, Stack.Push, Stack.Len,
      Stack.index, Vm.setCode, Vm.setFrame, FourOperations, Object.typeOf, Object.Value,
      assertFloat64]

end

/-- C17 (witness): `OpDiv` with the number 1 on top of the number 0 divides 1 by
0 and pushes the quotient. -/
theorem div_on_numbers_never_fails_witness :
    execOp OpDiv 0 0 (opVm OpDiv [NumObj (Sym.lit 0), NumObj (Sym.lit 1)])
      = .done (opVm OpDiv [NumObj (Sym.div (Sym.lit 1) (Sym.lit 0))]) :=
  (div_on_numbers_never_fails 0 0 0 0 (opVm OpDiv [NumObj (Sym.lit 0), NumObj (Sym.lit 1)])
    (NewCode ⟨[OpDiv]⟩ ⟨[]⟩ ⟨[]⟩ ⟨[]⟩)
    { code := 0, stack := ⟨[NumObj (Sym.lit 0), NumObj (Sym.lit 1)]⟩, localVar := [],
      builtin := [] }
    [] (Sym.lit 1) (Sym.lit 0) rfl rfl rfl rfl).1

/-! ## C18: the two modes of `Pop` -/

theorem pushAll_val {α : Type} (s : Stack α) (xs : List α) :
    pushAll s xs = ⟨s.Val ++ xs⟩ := by
  induction xs generalizing s with
  | nil => simp [pushAll]
  | cons x xs ih => simp [pushAll, ih, Stack.Push]

theorem pop_fifo_cons {α : Type} (x : α) (xs : List α) :
    (Stack.mk (x :: xs)).Pop true = (some x, ⟨xs⟩) := by
  simp [Stack.Pop, Stack.Len]

theorem pop_lifo_snoc {α : Type} (xs : List α) (x : α) :
    (Stack.mk (xs ++ [x])).Pop false = (some x, ⟨xs⟩) := by
  simp [Stack.Pop, Stack.Len]

theorem popN_fifo {α : Type} (xs : List α) :
    popN true xs.length (Stack.mk xs) = (xs.map some, ⟨[]⟩) := by
  induction xs with
  | nil => rfl
  | cons x xs ih => simp [popN, pop_fifo_cons, ih]

theorem popN_lifo {α : Type} (xs : List α) :
    popN false xs.length (Stack.mk xs) = (xs.reverse.map some, ⟨[]⟩) := by
  induction xs using List.reverseRecOn with
  | nil => rfl
  | append_singleton xs x ih =>
    simp only [List.length_append, List.length_singleton, popN, pop_lifo_snoc, ih]
    simp

/-- C18: for every list `xs`, `Pop` in LIFO mode (`reverse = false`) on the
stack `xs` returns the last element of `xs` and leaves `xs` without its last
element, and `Pop` in FIFO mode (`reverse = true`) returns the first element and
leaves `xs` without its first element, the remaining elements in their order; on
the empty stack both return `nil` and leave it empty.  Pushing the elements of
`xs` on the empty stack and popping as many times yields them in the order `xs`
in FIFO mode and in the reverse order in LIFO mode, the stack empty at the end. -/
theorem dual_discipline_pop {α : Type} (xs : List α) (x : α) :
    (Stack.mk xs).Pop false = (xs.getLast?, ⟨xs.dropLast⟩)
      ∧ (Stack.mk xs).Pop true = (xs.head?, ⟨xs.tail⟩)
      ∧ (Stack.mk (xs ++ [x])).Pop false = (some x, ⟨xs⟩)
      ∧ (Stack.mk (x :: xs)).Pop true = (some x, ⟨xs⟩)
      ∧ (∀ r : Bool, (Stack.mk ([] : List α)).Pop r = (none, ⟨[]⟩))
      ∧ popN true xs.length (pushAll ⟨[]⟩ xs) = (xs.map some, ⟨[]⟩)
      ∧ popN false xs.length (pushAll ⟨[]⟩ xs) = (xs.reverse.map some, ⟨[]⟩) := by
  refine ⟨?_, ?_, pop_lifo_snoc xs x, pop_fifo_cons x xs, fun r => by simp [Stack.Pop, Stack.Len],
    ?_, ?_⟩
  · induction xs using List.reverseRecOn with
    | nil => rfl
    | append_singleton ys y _ => rw [pop_lifo_snoc]; simp
  · cases xs with
    | nil => rfl
    | cons y ys => rw [pop_fifo_cons]; simp
  · rw [pushAll_val]; exact popN_fifo xs
  · rw [pushAll_val]; exact popN_lifo xs

/-! ## C19: `OpAddO` and `OpSubO` -/

section
variable [Add ν] [Sub ν] [Mul ν] [Div ν] [One ν]

/-- C19: when the loop of `eval` is at `OpAddO` or `OpSubO` and `top` is on top
of the stack: if `top` is the number `n`, the byte replaces it by the number
`n + 1` (`OpAddO`) or `n - 1` (`OpSubO`) and the loop goes on, the objects below
it, the symbol table, the code object with its constants and queue, and the rest
of the machine as they were; if `top` is a string, a function or none, `eval`
returns the `only integers can be evaluated` error, `top` popped. -/
theorem increment_decrement_top (fuel fi co ip b : Nat) (vm : Vm ν) (c : Code ν)
    (f : Frame ν) (rest : List (Object ν)) (top : Object ν)
    (hc : vm.heap[co]? = some c) (hb : c.bytes.Val[ip]? = some b)
    (hop : b = OpAddO ∨ b = OpSubO)
    (hf : vm.frames[fi]? = some f) (hs : f.stack.Val = rest ++ [top]) :
    (∀ n : ν, top = NumObj n →
        (b = OpAddO →
          execOp b fi co vm
              = .done (vm.setFrame fi { f with stack := ⟨rest ++ [NumObj (n + 1)]⟩ })
            ∧ evalLoop (fuel + 1) fi co ip vm
              = evalLoop fuel fi co (ip + 1)
                  (vm.setFrame fi { f with stack := ⟨rest ++ [NumObj (n + 1)]⟩ }))
        ∧ (b = OpSubO →
          execOp b fi co vm
              = .done (vm.setFrame fi { f with stack := ⟨rest ++ [NumObj (n - 1)]⟩ })
            ∧ evalLoop (fuel + 1) fi co ip vm
              = evalLoop fuel fi co (ip + 1)
                  (vm.setFrame fi { f with stack := ⟨rest ++ [NumObj (n - 1)]⟩ })))
      ∧ (top.typeOf = ObjType.Str ∨ top.typeOf = ObjType.Func ∨ top.typeOf = ObjType.None →
          evalLoop (fuel + 1) fi co ip vm
            = .failed .onlyIntegers (vm.setFrame fi { f with stack := ⟨rest⟩ })) := by
  have hcall : b ≠ OpCall := by rcases hop with h | h <;> subst h <;> decide
  have hstep := evalLoop_succ_op fuel fi co ip vm c b hc hb hcall
  have hpop := popStack_snoc f rest top hs
  refine ⟨fun n hn => ⟨fun hb1 => ?_, fun hb1 => ?_⟩, fun ht => ?_⟩
  · subst hn; subst hb1
    have h1 : execOp OpAddO fi co vm
        = .done (vm.setFrame fi { f with stack := ⟨rest ++ [NumObj (n + 1)]⟩ }) := by
      simp [execOp, hc, hf, hpop, pushStack, Stack.Push]
    exact ⟨h1, by rw [hstep, h1]⟩
  · subst hn; subst hb1
    have h1 : execOp OpSubO fi co vm
        = .done (vm.setFrame fi { f with stack := ⟨rest ++ [NumObj (n - 1)]⟩ }) := by
      simp [execOp, hc, hf, hpop, pushStack, Stack.Push]
    exact ⟨h1, by rw [hstep, h1]⟩
  · rw [hstep]
    cases top with
    | NumObj v => simp [Object.typeOf] at ht
    | StrObj v => rcases hop with h | h <;> subst h <;> simp [execOp, hc, hf, hpop]
    | FuncObj name args code => rcases hop with h | h <;> subst h <;> simp [execOp, hc, hf, hpop]
    | NoneObj => rcases hop with h | h <;> subst h <;> simp [execOp, hc, hf, hpop]

end

/-- C19 (witness): `IncrementTop` on the numbers `2, 5` leaves `2, 6`. -/
theorem increment_decrement_top_witness :
    execOp OpAddO 0 0 (opVm OpAddO [NumObj (2 : Int), NumObj 5])
      = .done (opVm OpAddO [NumObj 2, NumObj 6]) :=
  (((increment_decrement_top 0 0 0 0 OpAddO (opVm OpAddO [NumObj (2 : Int), NumObj 5])
    (NewCode ⟨[OpAddO]⟩ ⟨[]⟩ ⟨[]⟩ ⟨[]⟩)
    { code := 0, stack := ⟨[NumObj 2, NumObj 5]⟩, localVar := [], builtin := [] }
    [NumObj 2] (NumObj 5) rfl rfl (Or.inl rfl) rfl rfl).1 5 rfl).1 rfl).1

/-! ## A run of `eval` up to a byte -/

section
variable [Add ν] [Sub ν] [Mul ν] [Div ν] [One ν]

/-- A run of the loop that returns `nil` passes through every position `stop`
from `ip` on: the loop stopped before `stop` returns a machine from which the
loop, started at `stop`, returns the same final machine. -/
theorem evalLoop_split (fuel fi co ip stop : Nat) (vm vm1 : Vm ν)
    (h : evalLoop fuel fi co ip vm = .done vm1) (hle : ip ≤ stop) :
    ∃ vmMid k, evalLoopTo stop fuel fi co ip vm = .done vmMid
      ∧ evalLoop k fi co stop vmMid = .done vm1 ∧ Stable fi vm vmMid := by
  induction fuel generalizing ip vm with
  | zero => simp [evalLoop] at h
  | succ fuel ih =>
    have h0 := h
    unfold evalLoop at h
    unfold evalLoopTo
    cases hc : vm.heap[co]? with
    | none => simp [hc] at h
    | some c =>
      simp only [hc] at h ⊢
      by_cases hlt : ip < c.bytes.Val.length
      · simp only [hlt, dite_true] at h ⊢
        by_cases hst : ip < stop
        · simp only [hst, if_true]
          by_cases hb : c.bytes.Val[ip] = OpCall
          · simp only [hb, if_true] at h ⊢
            cases hr : callOp (enter (evalLoop fuel)) fi co vm with
            | done vm2 =>
              simp only [hr] at h ⊢
              obtain ⟨vmMid, k, h1, h2, h3⟩ := ih (ip + 1) vm2 h hst
              exact ⟨vmMid, k, h1, h2, stable_trans
                (callOp_stable _ fi co vm vm2 (enter_evalLoop_stable fuel) hr) h3⟩
            | failed e s => simp [hr] at h
            | panicked e s => simp [hr] at h
            | outOfFuel => simp [hr] at h
          · simp only [hb, if_false] at h ⊢
            cases hr : execOp c.bytes.Val[ip] fi co vm with
            | done vm2 =>
              simp only [hr] at h ⊢
              obtain ⟨vmMid, k, h1, h2, h3⟩ := ih (ip + 1) vm2 h hst
              exact ⟨vmMid, k, h1, h2, stable_trans (execOp_stable _ fi co vm vm2 hr) h3⟩
            | failed e s => simp [hr] at h
            | panicked e s => simp [hr] at h
            | outOfFuel => simp [hr] at h
        · have hEq : ip = stop := Nat.le_antisymm hle (Nat.le_of_not_lt hst)
          subst hEq
          simp only [hst, if_false]
          exact ⟨vm, fuel + 1, rfl, h0, stable_refl fi vm⟩
      · simp only [hlt, dite_false, Outcome.done.injEq] at h ⊢
        subst h
        refine ⟨vm, 1, rfl, ?_, stable_refl fi vm⟩
        have hlt2 : ¬ stop < c.bytes.Val.length := fun hh => hlt (Nat.lt_of_le_of_lt hle hh)
        simp [evalLoop, hc, hlt2]

end
/-! ## C16: what the final `OpRet` leaves on the stack -/

/-- C16 (counterexample): the program of `TestFourOperations` ends in `Return`
and `eval` returns `nil` on it, yet the number 800 is left on the evaluation
stack. -/
theorem stack_not_empty_counterexample :
    eval 10 (initVm [fourOps (34 : Int) 66 8]) = .done (fourOpsFinal 34 66 8 100 800)
      ∧ (fourOpsFinal (34 : Int) 66 8 100 800).frames
          = [{ code := 0, stack := ⟨[NumObj 800]⟩, localVar := [], builtin := [] }]
      ∧ (fourOps (34 : Int) 66 8).bytes.Val.getLast? = some OpRet := by
  decide

section
variable [Add ν] [Sub ν] [Mul ν] [Div ν] [One ν]

/-- C16 (amended): when the last byte of a code object is `OpRet` and the loop of
`eval`, started at its first byte on the frame at `fi`, returns `nil`, the loop
reaches the last byte in a machine `vmPre` whose frame at `fi` has at least one
object on its stack; the final machine is `vmPre` with exactly the object `x` on
top removed from that stack and stored in `last`.  The stack left is `rest`,
what lay below `x`: it is empty only when the bytes before the final `OpRet`
left one object. -/
theorem final_return_pops_one (fuel fi co n : Nat) (vm vm1 : Vm ν) (c : Code ν)
    (hc : vm.heap[co]? = some c) (hlen : c.bytes.Val.length = n + 1)
    (hret : c.bytes.Val[n]? = some OpRet)
    (hrun : evalLoop fuel fi co 0 vm = .done vm1) :
    ∃ vmPre f rest x, evalLoopTo n fuel fi co 0 vm = .done vmPre
      ∧ vmPre.frames[fi]? = some f ∧ f.stack.Val = rest ++ [x]
      ∧ vm1 = { (vmPre.setFrame fi { f with stack := ⟨rest⟩ }) with last := some x }
      ∧ vm1.frames[fi]? = some { f with stack := ⟨rest⟩ }
      ∧ vm1.last = some x := by
  obtain ⟨vmPre, k, h1, h2, h3⟩ := evalLoop_split fuel fi co 0 n vm vm1 hrun (Nat.zero_le _)
  obtain ⟨c1, hc1, hsame⟩ := h3.2.2.2 co c hc
  have hb1 : c1.bytes.Val[n]? = some OpRet := by rw [hsame.1]; exact hret
  cases k with
  | zero => simp [evalLoop] at h2
  | succ k =>
    rw [evalLoop_succ_op k fi co n vmPre c1 OpRet hc1 hb1 (by decide)] at h2
    cases hf : vmPre.frames[fi]? with
    | none => simp [execOp, hc1, hf] at h2
    | some f =>
      cases hp : popStack f with
      | none => simp [execOp, hc1, hf, hp] at h2
      | some p =>
        obtain ⟨x, f1⟩ := p
        obtain ⟨hs, hf1⟩ := popStack_some f f1 x hp
        have hop : execOp OpRet fi co vmPre
            = .done { (vmPre.setFrame fi f1) with last := some x } := by
          simp [execOp, hc1, hf, hp]
        rw [hop] at h2
        simp only at h2
        cases k with
        | zero => simp [evalLoop] at h2
        | succ k =>
          have hlt : ¬ n + 1 < c1.bytes.Val.length := by rw [hsame.1, hlen]; exact Nat.lt_irrefl _
          have hc2 : ({ (vmPre.setFrame fi f1) with last := some x } : Vm ν).heap[co]? = some c1 := by
            simpa [Vm.setFrame] using hc1
          unfold evalLoop at h2
          simp only [hc2, hlt, dite_false, Outcome.done.injEq] at h2
          have hfi : fi < vmPre.frames.length := (List.getElem?_eq_some_iff.mp hf).1
          refine ⟨vmPre, f, f1.stack.Val, x, h1, hf, hs, ?_, ?_, ?_⟩
          · rw [← h2, ← hf1]
          · rw [← h2, ← hf1]; simp [Vm.setFrame, hfi]
          · rw [← h2]

end

/-- C16 (witness): on `LoadConst None, Return` the final `Return` finds one
object, `None`, and leaves the stack empty. -/
theorem final_return_pops_one_witness :
    ∃ vmPre f rest x, evalLoopTo 1 3 0 0 0 (initVm [returnNone]) = .done vmPre
      ∧ vmPre.frames[0]? = some f ∧ f.stack.Val = rest ++ [x]
      ∧ returnNoneFinal = { (vmPre.setFrame 0 { f with stack := ⟨rest⟩ }) with last := some x }
      ∧ returnNoneFinal.frames[0]? = some { f with stack := ⟨rest⟩ }
      ∧ returnNoneFinal.last = some x :=
  final_return_pops_one 3 0 0 1 (initVm [returnNone]) returnNoneFinal returnNone rfl rfl rfl
    (by decide)

/-! ## C20: the order in which operand indices are used -/

theorem operandCount_cons (b : Nat) (bs : List Nat) :
    operandCount (b :: bs) = operandCount [b] + operandCount bs := by
  simp only [operandCount, List.countP_cons, List.countP_nil]
  omega

theorem operandCount_operand (b : Nat) (h : b = OpLoad ∨ b = OpConst ∨ b = OpStore) :
    operandCount [b] = 1 := by
  rcases h with h | h | h <;> subst h <;> rfl

theorem operandCount_other (b : Nat) (h0 : b ≠ OpLoad) (h1 : b ≠ OpConst) (h2 : b ≠ OpStore) :
    operandCount [b] = 0 := by
  simp [operandCount, h0, h1, h2]

section
variable [Add ν] [Sub ν] [Mul ν] [Div ν] [One ν]

/-- A byte other than `OpCall` that lets the loop go on has dequeued one operand
index when it is operand-bearing and none otherwise. -/
theorem opLocal_queue (b : Nat) (c : Code ν) (f : Frame ν) (e : OpEffect ν)
    (h : opLocal b c f = .next e) :
    e.c.offsets.Val = c.offsets.Val.drop (operandCount [b]) := by
  by_cases h0 : b = OpLoad
  · subst h0
    cases hp : popOffset c with
    | none => simp [opLocal, hp] at h
    | some p =>
      obtain ⟨i, c1⟩ := p
      obtain ⟨q, hq, hc1⟩ := popOffset_some c c1 i hp
      simp only [opLocal, if_true, hp] at h
      cases hn : c.vars.index i with
      | none => simp [hn] at h
      | some nam =>
        simp only [hn] at h
        cases hl : f.localVar.lookUp nam with
        | none => simp [hl] at h
        | some v =>
          simp only [hl, OpResult.next.injEq] at h
          subst h
          simp [hc1, hq, operandCount]
  · by_cases h1 : b = OpConst
    · subst h1
      cases hp : popOffset c with
      | none => simp [opLocal, hp] at h
      | some p =>
        obtain ⟨i, c1⟩ := p
        obtain ⟨q, hq, hc1⟩ := popOffset_some c c1 i hp
        simp only [opLocal, hp] at h
        cases hn : c.cons.index i with
        | none => simp [hn] at h
        | some v =>
          simp [hn] at h
          subst h
          simp [hc1, hq, operandCount]
    · by_cases h2 : b = OpStore
      · subst h2
        cases hs : popStack f with
        | none => simp [opLocal, hs] at h
        | some r =>
          obtain ⟨x, f1⟩ := r
          cases hp : popOffset c with
          | none => simp [opLocal, hs, hp] at h
          | some p =>
            obtain ⟨i, c1⟩ := p
            obtain ⟨q, hq, hc1⟩ := popOffset_some c c1 i hp
            simp only [opLocal, hs, hp] at h
            cases hn : c.vars.index i with
            | none => simp [hn] at h
            | some nam =>
              simp [hn] at h
              subst h
              simp [hc1, hq, operandCount]
      · rw [operandCount_other b h0 h1 h2, List.drop_zero]
        unfold opLocal at h
        simp only [if_neg h0, if_neg h1, if_neg h2] at h
        repeat' split at h
        all_goals (cases h <;> rfl)

/-- The same for `execOp` in the machine. -/
theorem execOp_queue (b fi co : Nat) (vm vm1 : Vm ν) (c : Code ν)
    (hc : vm.heap[co]? = some c) (h : execOp b fi co vm = .done vm1) :
    ∃ c1, vm1.heap[co]? = some c1 ∧ Code.SameText c c1
      ∧ c1.offsets.Val = c.offsets.Val.drop (operandCount [b]) := by
  cases hf : vm.frames[fi]? with
  | none => simp [execOp, hc, hf] at h
  | some f =>
    rw [execOp_eq_lift b fi co vm c f hc hf] at h
    have hlt : co < vm.heap.length := (List.getElem?_eq_some_iff.mp hc).1
    cases hr : opLocal b c f with
    | next e =>
      simp only [hr, liftResult, Outcome.done.injEq] at h
      subst h
      exact ⟨e.c, writeBack_heap_get fi co vm e hlt, opLocal_sameText b c f e hr,
        opLocal_queue b c f e hr⟩
    | failed err e => simp [hr, liftResult] at h
    | panicked e => simp [hr, liftResult] at h

end
section
variable [Add ν] [Sub ν] [Mul ν] [Div ν] [One ν]

/-- On a code object without `OpCall`, the loop stopped before `stop` has
dequeued as many operand indices as there are operand-bearing bytes from `ip`
up to `stop`. -/
theorem evalLoopTo_queue (fuel fi co ip stop : Nat) (vm vmMid : Vm ν) (c : Code ν)
    (hc : vm.heap[co]? = some c) (hleaf : OpCall ∉ c.bytes.Val)
    (h : evalLoopTo stop fuel fi co ip vm = .done vmMid) :
    ∃ cMid, vmMid.heap[co]? = some cMid ∧ Code.SameText c cMid
      ∧ cMid.offsets.Val
          = c.offsets.Val.drop (operandCount ((c.bytes.Val.take stop).drop ip)) := by
  induction fuel generalizing ip vm c with
  | zero => simp [evalLoopTo] at h
  | succ fuel ih =>
    unfold evalLoopTo at h
    simp only [hc] at h
    by_cases hlt : ip < c.bytes.Val.length
    · simp only [hlt, dite_true] at h
      by_cases hst : ip < stop
      · simp only [hst, if_true] at h
        have hb : c.bytes.Val[ip] ≠ OpCall := fun hh => hleaf (hh ▸ List.getElem_mem _)
        simp only [if_neg hb] at h
        cases hr : execOp c.bytes.Val[ip] fi co vm with
        | done vm2 =>
          simp only [hr] at h
          obtain ⟨c2, hc2, hs2, hq2⟩ := execOp_queue _ fi co vm vm2 c hc hr
          have hleaf2 : OpCall ∉ c2.bytes.Val := by rw [hs2.1]; exact hleaf
          obtain ⟨cMid, hcm, hsm, hqm⟩ := ih (ip + 1) vm2 c2 hc2 hleaf2 h
          refine ⟨cMid, hcm, sameText_trans hs2 hsm, ?_⟩
          have hlt2 : ip < (c.bytes.Val.take stop).length := by
            simp [List.length_take, hlt, hst]
          have hd : (c.bytes.Val.take stop).drop ip
              = c.bytes.Val[ip] :: (c.bytes.Val.take stop).drop (ip + 1) := by
            rw [List.drop_eq_getElem_cons hlt2]
            simp
          rw [hqm, hq2, hs2.1, hd,
            operandCount_cons c.bytes.Val[ip] ((c.bytes.Val.take stop).drop (ip + 1)),
            List.drop_drop]
        | failed e s => simp [hr] at h
        | panicked e s => simp [hr] at h
        | outOfFuel => simp [hr] at h
      · simp only [hst, if_false, Outcome.done.injEq] at h
        subst h
        refine ⟨c, hc, sameText_refl c, ?_⟩
        have : (c.bytes.Val.take stop).drop ip = [] := by
          apply List.drop_eq_nil_of_le
          simp only [List.length_take]
          omega
        simp [this, operandCount]
    · simp only [hlt, dite_false, Outcome.done.injEq] at h
      subst h
      refine ⟨c, hc, sameText_refl c, ?_⟩
      have : (c.bytes.Val.take stop).drop ip = [] := by
        apply List.drop_eq_nil_of_le
        simp only [List.length_take]
        omega
      simp [this, operandCount]

end
section
variable [Add ν] [Sub ν] [Mul ν] [Div ν] [One ν]

/-- C20: let `c` be a code object without `OpCall` on which the loop of `eval`,
started at the first byte with the queue `c.offsets`, returns `nil`.  For every
position `j`, the loop reaches the byte `b` at `j` with the queue equal to the
initial queue without its first `k` entries, `k` the number of operand-bearing
bytes before `j`.  If `b` is operand-bearing it dequeues the entry `i` at
position `k` of the initial queue and uses it as its index: `OpConst` pushes
`cons[i]`, `OpLoad` pushes the object bound to `vars[i]`, `OpStore` binds
`vars[i]` to the object it pops.  Any other byte leaves the queue as it is.  At
the end the queue is the initial queue without its first `m` entries, `m` the
number of operand-bearing bytes of `c`. -/
theorem operand_resolution_order (fuel fi co : Nat) (vm vm1 : Vm ν) (c : Code ν)
    (hc : vm.heap[co]? = some c) (hleaf : OpCall ∉ c.bytes.Val)
    (hrun : evalLoop fuel fi co 0 vm = .done vm1) :
    (∀ (j b : Nat), c.bytes.Val[j]? = some b →
      ∃ vmj cj fj, evalLoopTo j fuel fi co 0 vm = .done vmj
        ∧ vmj.heap[co]? = some cj ∧ vmj.frames[fi]? = some fj ∧ Code.SameText c cj
        ∧ cj.offsets.Val = c.offsets.Val.drop (operandCount (c.bytes.Val.take j))
        ∧ (b = OpConst → ∃ i v,
            c.offsets.Val[operandCount (c.bytes.Val.take j)]? = some i
              ∧ c.cons.index i = some v
              ∧ execOp b fi co vmj
                = .done ((vmj.setCode co { cj with offsets :=
                      ⟨c.offsets.Val.drop (operandCount (c.bytes.Val.take j) + 1)⟩ }).setFrame fi
                    { fj with stack := ⟨fj.stack.Val ++ [v]⟩ }))
        ∧ (b = OpLoad → ∃ i nam v,
            c.offsets.Val[operandCount (c.bytes.Val.take j)]? = some i
              ∧ c.vars.index i = some nam ∧ fj.localVar.lookUp nam = some v
              ∧ execOp b fi co vmj
                = .done ((vmj.setCode co { cj with offsets :=
                      ⟨c.offsets.Val.drop (operandCount (c.bytes.Val.take j) + 1)⟩ }).setFrame fi
                    { fj with stack := ⟨fj.stack.Val ++ [v]⟩ }))
        ∧ (b = OpStore → ∃ i nam x rest,
            c.offsets.Val[operandCount (c.bytes.Val.take j)]? = some i
              ∧ c.vars.index i = some nam ∧ fj.stack.Val = rest ++ [x]
              ∧ execOp b fi co vmj
                = .done ((vmj.setCode co { cj with offsets :=
                      ⟨c.offsets.Val.drop (operandCount (c.bytes.Val.take j) + 1)⟩ }).setFrame fi
                    { fj with stack := ⟨rest⟩, localVar := fj.localVar.store nam x }))
        ∧ (b ≠ OpConst → b ≠ OpLoad → b ≠ OpStore → ∃ vmn cn,
            execOp b fi co vmj = .done vmn ∧ vmn.heap[co]? = some cn
              ∧ cn.offsets.Val = cj.offsets.Val))
      ∧ ∃ c1, vm1.heap[co]? = some c1
          ∧ c1.offsets.Val = c.offsets.Val.drop (operandCount c.bytes.Val) := by
  constructor
  · intro j b hjb
    obtain ⟨vmj, k, h1, h2, hst⟩ := evalLoop_split fuel fi co 0 j vm vm1 hrun (Nat.zero_le _)
    obtain ⟨cj, hcj, hsame, hq⟩ := evalLoopTo_queue fuel fi co 0 j vm vmj c hc hleaf h1
    rw [List.drop_zero] at hq
    have hbj : cj.bytes.Val[j]? = some b := by rw [hsame.1]; exact hjb
    have hcall : b ≠ OpCall := fun hh =>
      hleaf (hh ▸ List.getElem?_mem hjb)
    cases k with
    | zero => simp [evalLoop] at h2
    | succ k =>
      rw [evalLoop_succ_op k fi co j vmj cj b hcj hbj hcall] at h2
      cases hr : execOp b fi co vmj with
      | failed e s => simp [hr] at h2
      | panicked e s => simp [hr] at h2
      | outOfFuel => simp [hr] at h2
      | done vmn =>
        cases hf : vmj.frames[fi]? with
        | none => simp [execOp, hcj, hf] at hr
        | some fj =>
          -- the front of the queue, when the byte dequeues
          have hfront : ∀ (i : Int) (q : List Int), cj.offsets.Val = i :: q →
              c.offsets.Val[operandCount (c.bytes.Val.take j)]? = some i
                ∧ q = c.offsets.Val.drop (operandCount (c.bytes.Val.take j) + 1) := by
            intro i q hiq
            rw [hq] at hiq
            constructor
            · have h0 : (c.offsets.Val.drop (operandCount (c.bytes.Val.take j)))[0]? = some i := by
                rw [hiq]; simp
              simpa [List.getElem?_drop] using h0
            · have h0 := congrArg List.tail hiq
              simpa [List.tail_drop] using h0.symm
          refine ⟨vmj, cj, fj, h1, hcj, hf, hsame, hq, ?_, ?_, ?_, ?_⟩
          · intro hb
            subst hb
            cases hqv : cj.offsets.Val with
            | nil => simp [execOp, hcj, hf, popOffset_nil cj hqv] at hr
            | cons i q =>
              obtain ⟨hi, hqd⟩ := hfront i q hqv
              cases hv : cj.cons.index i with
              | none => simp [execOp, hcj, hf, popOffset_cons cj i q hqv, hv] at hr
              | some v =>
                refine ⟨i, v, hi, by rw [← hsame.2.1]; exact hv, ?_⟩
                rw [← hqd]
                simp [execOp, hcj, hf, popOffset_cons cj i q hqv, hv, pushStack, Stack.Push]
          · intro hb
            subst hb
            cases hqv : cj.offsets.Val with
            | nil => simp [execOp, hcj, hf, popOffset_nil cj hqv] at hr
            | cons i q =>
              obtain ⟨hi, hqd⟩ := hfront i q hqv
              cases hv : cj.vars.index i with
              | none => simp [execOp, hcj, hf, popOffset_cons cj i q hqv, hv] at hr
              | some nam =>
                cases hl : fj.localVar.lookUp nam with
                | none => simp [execOp, hcj, hf, popOffset_cons cj i q hqv, hv, hl] at hr
                | some v =>
                  refine ⟨i, nam, v, hi, by rw [← hsame.2.2]; exact hv, hl, ?_⟩
                  rw [← hqd]
                  simp [execOp, hcj, hf, popOffset_cons cj i q hqv, hv, hl, pushStack, Stack.Push]
          · intro hb
            subst hb
            cases hp : popStack fj with
            | none => simp [execOp, hcj, hf, hp] at hr
            | some p =>
              obtain ⟨x, f1⟩ := p
              obtain ⟨hs, hf1⟩ := popStack_some fj f1 x hp
              cases hqv : cj.offsets.Val with
              | nil => simp [execOp, hcj, hf, hp, popOffset_nil cj hqv] at hr
              | cons i q =>
                obtain ⟨hi, hqd⟩ := hfront i q hqv
                cases hv : cj.vars.index i with
                | none => simp [execOp, hcj, hf, hp, popOffset_cons cj i q hqv, hv] at hr
                | some nam =>
                  refine ⟨i, nam, x, f1.stack.Val, hi, by rw [← hsame.2.2]; exact hv, hs, ?_⟩
                  rw [← hqd]
                  simp only [execOp, hcj, hf, hp, popOffset_cons cj i q hqv, hv]
                  rw [hf1]
                  simp
          · intro hb1 hb0 hb2
            obtain ⟨cn, hcn, _, hqn⟩ := execOp_queue b fi co vmj vmn cj hcj hr
            rw [operandCount_other b hb0 hb1 hb2, List.drop_zero] at hqn
            exact ⟨vmn, cn, hr, hcn, hqn⟩
  · obtain ⟨vmMid, k, h1, h2, hst⟩ :=
      evalLoop_split fuel fi co 0 c.bytes.Val.length vm vm1 hrun (Nat.zero_le _)
    obtain ⟨cMid, hcm, hsame, hq⟩ :=
      evalLoopTo_queue fuel fi co 0 c.bytes.Val.length vm vmMid c hc hleaf h1
    rw [List.drop_zero, List.take_length] at hq
    cases k with
    | zero => simp [evalLoop] at h2
    | succ k =>
      have hlt : ¬ c.bytes.Val.length < cMid.bytes.Val.length := by
        rw [hsame.1]; exact Nat.lt_irrefl _
      unfold evalLoop at h2
      simp only [hcm, hlt, dite_false, Outcome.done.injEq] at h2
      subst h2
      exact ⟨cMid, hcm, hq⟩

end

/-- C20 (witness): the program of `TestStore` has eight operand-bearing bytes;
its run uses up the eight entries of the queue. -/
theorem operand_resolution_order_witness :
    ∃ c1, (testStoreFinal (3 : Int) 4 7).heap[0]? = some c1
      ∧ c1.offsets.Val
          = (testStore (3 : Int) 4).offsets.Val.drop (operandCount (testStore (3 : Int) 4).bytes.Val) :=
  (operand_resolution_order 11 0 0 (initVm [testStore (3 : Int) 4]) (testStoreFinal 3 4 7)
    (testStore 3 4) rfl (by decide) (by decide)).2

/-! ## C21: a call with too few objects on the stack -/

/-- The argument loop of `OpCall` on a stack that holds at least as many objects
as it has rounds to go never pops an empty stack: it runs through, or it panics
on a missing parameter name, the stack then not empty. -/
theorem bindArgs_pops_nonempty (vars : Stack String) (fi k i : Nat) (vm : Vm ν) (n f : Frame ν)
    (hf : vm.frames[fi]? = some f) (hlen : k ≤ f.stack.Val.length) :
    (∃ p, bindArgs vars fi k i vm n = .done p)
      ∨ (∃ s f1, bindArgs vars fi k i vm n = .panicked none s
          ∧ s.frames[fi]? = some f1 ∧ f1.stack.Val ≠ []) := by
  induction k generalizing i vm n f with
  | zero => exact Or.inl ⟨_, rfl⟩
  | succ k ih =>
    unfold bindArgs
    cases hx : vars.Val[i]? with
    | none =>
      refine Or.inr ⟨vm, f, rfl, hf, ?_⟩
      intro hnil
      rw [hnil] at hlen
      simp at hlen
    | some x =>
      simp only [hf]
      rcases List.eq_nil_or_concat f.stack.Val with hnil | ⟨l, a, hl⟩
      · rw [hnil] at hlen
        simp at hlen
      · have hl2 : f.stack.Val = l ++ [a] := by simpa using hl
        rw [popStack_snoc f l a hl2]
        simp only
        apply ih
        · exact Vm.getFrame_setFrame vm fi f _ hf
        · rw [hl2] at hlen
          simp at hlen
          simpa using hlen

section
variable [Add ν] [Sub ν] [Mul ν] [Div ν] [One ν]

/-- The loop stopped before a byte keeps the number of frames, the frames below
`fi` and the text of the code objects. -/
theorem evalLoopTo_stable (stop fuel fi co ip : Nat) (vm vm1 : Vm ν)
    (h : evalLoopTo stop fuel fi co ip vm = .done vm1) : Stable fi vm vm1 := by
  induction fuel generalizing ip vm with
  | zero => simp [evalLoopTo] at h
  | succ fuel ih =>
    unfold evalLoopTo at h
    cases hc : vm.heap[co]? with
    | none => simp [hc] at h
    | some c =>
      simp only [hc] at h
      by_cases hlt : ip < c.bytes.Val.length
      · simp only [hlt, dite_true] at h
        by_cases hst : ip < stop
        · simp only [hst, if_true] at h
          by_cases hb : c.bytes.Val[ip] = OpCall
          · simp only [hb, if_true] at h
            cases hr : callOp (enter (evalLoop fuel)) fi co vm with
            | done vm2 =>
              simp only [hr] at h
              exact stable_trans
                (callOp_stable _ fi co vm vm2 (enter_evalLoop_stable fuel) hr) (ih _ _ h)
            | failed e s => simp [hr] at h
            | panicked e s => simp [hr] at h
            | outOfFuel => simp [hr] at h
          · simp only [hb, if_false] at h
            cases hr : execOp c.bytes.Val[ip] fi co vm with
            | done vm2 =>
              simp only [hr] at h
              exact stable_trans (execOp_stable _ fi co vm vm2 hr) (ih _ _ h)
            | failed e s => simp [hr] at h
            | panicked e s => simp [hr] at h
            | outOfFuel => simp [hr] at h
        · simp only [hst, if_false, Outcome.done.injEq] at h
          subst h
          exact stable_refl fi vm
      · simp only [hlt, dite_false, Outcome.done.injEq] at h
        subst h
        exact stable_refl fi vm

/-- The check of the number of arguments: let the loop of an `eval` started on the
top frame reach a `OpCall` that finds on top of the stack a function of declared
arity `k` whose frame can be built, with the objects `rest` below it, and dequeues the operand index `k`,
`k ≠ 0`.  If `rest` holds fewer than `k` objects, the `OpCall` returns the
`data loading error`, whatever the run of the callee would do, and so does
`eval`; in the machine returned the function is popped and the index dequeued,
the objects `rest` are all still on the stack and no frame is pushed.  If `rest`
holds at least `k` objects, the argument loop never pops an empty stack: the
`OpCall` pushes the callee's frame, or it panics on a missing parameter name with
the stack not empty. -/
theorem call_data_loading (fuel0 fuel fi co ip : Nat) (vm0 vm : Vm ν) (f : Frame ν)
    (c cc : Code ν) (rest : List (Object ν)) (name : String) (k : Int) (code : Nat)
    (q : List Int)
    (hstart : fi + 1 = vm0.frames.length)
    (hreach : evalLoopTo ip fuel0 fi co 0 vm0 = .done vm)
    (hc : vm.heap[co]? = some c) (hb : c.bytes.Val[ip]? = some OpCall)
    (hf : vm.frames[fi]? = some f) (hs : f.stack.Val = rest ++ [FuncObj name k code])
    (hcc : vm.heap[code]? = some cc) (hd : dissemble cc = true)
    (hq : c.offsets.Val = k :: q) (hk : k ≠ 0) :
    ((rest.length : Int) < k →
        (∀ run : Vm ν → Outcome ν (Vm ν),
          callOp run fi co vm = .failed .dataLoading (afterCallOperand vm fi co f c rest q))
        ∧ evalLoop (fuel + 1) fi co ip vm
            = .failed .dataLoading (afterCallOperand vm fi co f c rest q)
        ∧ (afterCallOperand vm fi co f c rest q).frames
            = vm.frames.set fi { f with stack := ⟨rest⟩ })
      ∧ (k ≤ (rest.length : Int) →
          (∃ ctx, callEnter fi co vm = .done ctx)
            ∨ (∃ s f1, callEnter fi co vm = .panicked none s
                ∧ s.frames[fi]? = some f1 ∧ f1.stack.Val ≠ [])) := by
  have htop : fi + 1 = vm.frames.length := by
    rw [(evalLoopTo_stable ip fuel0 fi co 0 vm0 vm hreach).1]; exact hstart
  have hfi : fi < vm.frames.length := by omega
  have key := callEnter_eq fi co vm f c cc rest name k k code q hf hs hcc hd hc hq
  have htf : (afterCallOperand vm fi co f c rest q).topFrame
      = some { f with stack := ⟨rest⟩ } := by
    rw [Vm.topFrame_eq _ fi (by simpa [afterCallOperand, Vm.setFrame, Vm.setCode] using htop)]
    simp [afterCallOperand, Vm.setFrame, Vm.setCode, hfi]
  have hget : (afterCallOperand vm fi co f c rest q).frames[fi]?
      = some { f with stack := ⟨rest⟩ } := by
    simp [afterCallOperand, Vm.setFrame, Vm.setCode, hfi]
  rw [if_pos hk, if_neg (not_not.mpr rfl)] at key
  simp only [htf, Stack.Len] at key
  constructor
  · intro hshort
    rw [if_pos hshort] at key
    have hcall : ∀ run : Vm ν → Outcome ν (Vm ν),
        callOp run fi co vm = .failed .dataLoading (afterCallOperand vm fi co f c rest q) := by
      intro run
      simp [callOp, key]
    refine ⟨hcall, ?_, ?_⟩
    · rw [evalLoop_succ_call fuel fi co ip vm c hc hb, hcall]
    · simp [afterCallOperand, Vm.setFrame, Vm.setCode]
  · intro hge
    rw [if_neg (not_lt.mpr hge)] at key
    have hlen : k.toNat ≤ ({ f with stack := ⟨rest⟩ } : Frame ν).stack.Val.length := by
      simp only
      omega
    rcases bindArgs_pops_nonempty cc.vars fi k.toNat 0 (afterCallOperand vm fi co f c rest q)
        (freshFrame code) _ hget hlen with ⟨p, hp⟩ | ⟨s, f1, hp, hs1, hne⟩
    · rw [hp] at key
      exact Or.inl ⟨_, key⟩
    · rw [hp] at key
      exact Or.inr ⟨s, f1, key, hs1, hne⟩

end

/-- The check on a function of arity 2 called with the operand index 2 and a
single object, `7`, below it. -/
theorem call_data_loading_witness :
    evalLoop 1 0 0 0 (callVm 2 2 ["x", "y"] [NumObj 7])
      = .failed .dataLoading
          (afterCallOperand (callVm 2 2 ["x", "y"] [NumObj 7]) 0 0
            { code := 0, stack := ⟨[NumObj 7, FuncObj "foo" 2 1]⟩, localVar := [],
              builtin := [] }
            (NewCode ⟨[OpCall]⟩ ⟨[]⟩ ⟨[]⟩ ⟨[2]⟩) [NumObj 7] []) :=
  ((call_data_loading 1 0 0 0 0 (callVm 2 2 ["x", "y"] [NumObj 7])
    (callVm 2 2 ["x", "y"] [NumObj 7])
    { code := 0, stack := ⟨[NumObj 7, FuncObj "foo" 2 1]⟩, localVar := [], builtin := [] }
    (NewCode ⟨[OpCall]⟩ ⟨[]⟩ ⟨[]⟩ ⟨[2]⟩)
    (NewCode ⟨[OpConst, OpRet]⟩ ⟨[NoneObj]⟩ ⟨["x", "y"]⟩ ⟨[0]⟩)
    [NumObj 7] "foo" 2 1 [] rfl (by decide) rfl rfl rfl rfl rfl (by decide) rfl
    (by decide)).1 (by decide)).2.1

/-! ## Calls on a code unit whose listing panics -/

/-- When the listing `NewFrame` prints of the callee's code unit panics, the case
`OpCall` panics right after popping the function: the operand index is not
dequeued, no check is made, no frame is pushed. -/
theorem callEnter_listing_panics (fi co : Nat) (vm : Vm ν) (f : Frame ν) (cc : Code ν)
    (rest : List (Object ν)) (name : String) (n : Int) (code : Nat)
    (hf : vm.frames[fi]? = some f) (hs : f.stack.Val = rest ++ [FuncObj name n code])
    (hcc : vm.heap[code]? = some cc) (hd : dissemble cc = false) :
    callEnter fi co vm = .panicked none (vm.setFrame fi { f with stack := ⟨rest⟩ }) := by
  unfold callEnter
  simp [hf, popStack_snoc f rest _ hs, Vm.setFrame, NewFrame, hcc, hd]

/-- C5 (the code at the failing input): `LoadConst f, Call` with the operand
index 2 for the call, `f` a function of declared arity 1 whose code unit is
`LoadVar x, LoadVar x, Add, Return` with the one name `x`.  The listing of the
callee panics, so `eval` panics with the function popped and the index 2 still in
the queue; it returns no error, the `function parameter error` included. -/
theorem arity_error_preempted_by_listing :
    dissemble loadTwice = false
      ∧ eval 3 (initVm [callFn 1 2, loadTwice]) = .panicked none (listingPanicked 1 2)
      ∧ ∀ (e : EvalError Int) (s : Vm Int),
          eval 3 (initVm [callFn 1 2, loadTwice]) ≠ .failed e s := by
  have h : eval 3 (initVm [callFn 1 2, loadTwice]) = .panicked none (listingPanicked 1 2) := by
    decide
  exact ⟨by decide, h, fun e s h2 => by rw [h] at h2; cases h2⟩

/-- C21 (the code at the failing input): `LoadConst f, Call` with the operand
index 1 for the call, `f` a function of declared arity 1 whose code unit is
`LoadVar x, LoadVar x, Add, Return` with the one name `x`; nothing lies below the
function on the stack.  The listing of the callee panics, so `eval` panics with
the function popped and the index 1 still in the queue; it returns no error, the
`data loading error` included. -/
theorem data_loading_error_preempted_by_listing :
    dissemble loadTwice = false
      ∧ eval 3 (initVm [callFn 1 1, loadTwice]) = .panicked none (listingPanicked 1 1)
      ∧ ∀ (e : EvalError Int) (s : Vm Int),
          eval 3 (initVm [callFn 1 1, loadTwice]) ≠ .failed e s := by
  have h : eval 3 (initVm [callFn 1 1, loadTwice]) = .panicked none (listingPanicked 1 1) := by
    decide
  exact ⟨by decide, h, fun e s h2 => by rw [h] at h2; cases h2⟩

/-- A function of declared arity 2 whose code unit has the one name `x`, called
with the operand index 2 and two objects below it: the argument loop binds `x`
to the object popped first and panics reading the second name, one object
popped. -/
theorem call_too_few_names_panics :
    callEnter 0 0 (callVm 2 2 ["x"] [NumObj 3, StrObj "OK!!"])
      = .panicked none
          { frames := [{ code := 0, stack := ⟨[NumObj 3]⟩, localVar := [], builtin := [] }],
            last := none,
            heap := [NewCode ⟨[OpCall]⟩ ⟨[]⟩ ⟨[]⟩ ⟨[]⟩,
                     NewCode ⟨[OpConst, OpRet]⟩ ⟨[NoneObj]⟩ ⟨["x"]⟩ ⟨[0]⟩],
            out := [] } := by
  decide

/-! ## C8: a returned object and the calls that follow it in the callee -/

/-- C8 (the code at the failing input): `LoadConst g, Call`, where `g` runs
`LoadConst 1, Return, LoadConst h, Call` and `h` is the empty code unit.  The
loop reaches the call of `g` in `atCall`, the call enters the callee in `entry`,
and the callee's loop reaches its byte 2 with `1`, stored by its `Return`, in
`last`.  The call of `h` that follows pushes this `1` on the stack of the frame of
`g` and clears `last`; so the call of `g` completes with nothing pushed on the
caller's stack.  Likewise a callee `LoadConst 1, Return, LoadConst 2, Return`
leaves `2`, not `1`, on the caller's stack. -/
theorem return_then_call_forwards_nothing :
    ∃ atCall entry mid,
      evalLoopTo 1 10 0 0 0 (initVm [callFn 0 0, returnThenCall, emptyCode]) = .done atCall
        ∧ callEnter 0 0 atCall = .done { vm := entry, t := ⟨[0, 1, 0]⟩, callee := 1 }
        ∧ evalLoopTo 2 9 1 1 0 entry = .done mid
        ∧ mid.last = some (NumObj 1)
        ∧ eval 10 (initVm [callFn 0 0, returnThenCall, emptyCode])
            = .done { frames := [freshFrame 0], last := none,
                      heap := [NewCode ⟨[OpConst, OpCall]⟩ ⟨[FuncObj "f" 0 1]⟩ ⟨[]⟩ ⟨[]⟩,
                               returnThenCall, emptyCode],
                      out := [] }
        ∧ eval 10 (initVm [callFn 0 0, retProg (NumObj 1) (NumObj 2)])
            = .done { frames := [{ code := 0, stack := ⟨[NumObj 2]⟩, localVar := [],
                                   builtin := [] }],
                      last := none,
                      heap := [NewCode ⟨[OpConst, OpCall]⟩ ⟨[FuncObj "f" 0 1]⟩ ⟨[]⟩ ⟨[]⟩,
                               retProg (NumObj 1) (NumObj 2)],
                      out := [] } := by
  refine ⟨_, _, _, rfl, rfl, rfl, ?_, ?_, ?_⟩ <;> decide

end PyFrame
